import Mathlib

/-!
# Verification of the e-json encoder/decoder (src/src/encoder.ts)

A shallow embedding of the repository's single source file. The file defines
two components:

* `class Parser` — a hand-written recursive-descent JSON parser over a string
  and a mutable cursor `pos`;
* `class Encoder` — a value-to-text encoder dispatching on the host value's
  runtime shape.

Modelling conventions:

* JS strings are modelled as `List Char` (one `Char` per UTF-16 code unit;
  lone surrogates, which no claim exercises, fall outside the model).
* The cursor `(input, pos)` is modelled by the remaining suffix
  `input.drop pos`: `currentToken()` is `head?`, `pos++` is `tail`.
  `charAt` past the end returns the empty string in JS; here that state is
  the empty list, with `head? = none` playing the role of `''`.
* JS numbers are modelled exactly as a pair `(mantissa : Int, scale : Nat)`
  denoting `mantissa / 10 ^ scale` — an exact-decimal abstraction of the
  binary64 value `parseFloat` produces.  It is exact for every number the
  claims exercise (integers of magnitude at most 2^53, where binary64 and
  `String(n)` are both exact and plain-decimal).  `NaN`/`Infinity` numbers
  and the exponent-notation printing thresholds of `Number#toString` are
  outside the abstraction.
* The source's `while` loops over the cursor can fail to terminate (the
  string loop runs `pos` past the input forever).  Every looping or
  recursive parser function therefore takes an explicit `fuel : Nat`,
  structurally decreasing, and a distinguished result `PResult.fuelOut`
  marks fuel exhaustion; genuine non-termination of the source appears as
  `∀ fuel, … = .fuelOut`.
* Thrown `Error`s carry message strings in the source; they are modelled by
  one error constructor per distinct `throw` site.
-/

namespace EJson

/-- A decoded JSON value, as produced by `Parser.parse`.  Numbers are the
exact-decimal pair `(mant, scale)` denoting `mant / 10 ^ scale` (see the
header); strings are lists of UTF-16 code units. -/
inductive JsonValue where
  | null
  | bool (b : Bool)
  | num (mant : Int) (scale : Nat)
  | str (s : List Char)
  | arr (elems : List JsonValue)
  | obj (props : List (List Char × JsonValue))

/-- One constructor per distinct `throw` site of the parser. -/
inductive ParseError where
  /-- `consume(expected)`: "Expected ${expected} at position …". -/
  | expectedChar (c : Char)
  /-- `parse()`: "Unexpected token at position …" (trailing input). -/
  | trailingToken
  /-- `parseValue()` default branch: "Invalid JSON value at position …". -/
  | invalidValue
  /-- `parseObject()`: "Invalid object at position …". -/
  | invalidObject
  /-- `parseArray()`: "Invalid array at position …". -/
  | invalidArray
  /-- `parseDigits()`: "Invalid JSON number at position …". -/
  | invalidNumber
  /-- `parseEscape()`, `\u` arm: "Invalid Unicode escape sequence at …". -/
  | invalidUnicodeEscape
  /-- `parseEscape()` default branch: "Invalid escape sequence at …". -/
  | invalidEscape
deriving DecidableEq, Repr

/-- Result of a fueled parsing function: a value together with the remaining
input, an error, or fuel exhaustion (the marker for source-level
non-termination). -/
inductive PResult (α : Type) where
  | ok (a : α) (rest : List Char)
  | err (e : ParseError)
  | fuelOut
deriving DecidableEq, Repr

/-- The four characters the inline whitespace loop of `Parser.consume` (and
`optionalConsume`) skips: `" "`, `"\t"`, `"\n"`, `"\r"`. -/
def isWs4 (c : Char) : Bool :=
  c = ' ' || c = '\t' || c = '\n' || c = '\r'

/-- The JS regular-expression class `\s` used by `consumeWhitespace`
(ASCII whitespace plus the Unicode space separators and the BOM). -/
def isJsWs (c : Char) : Bool :=
  c = ' ' || c = '\t' || c = '\n' || c = '\x0b' || c = '\x0c' || c = '\r' ||
  c = '\u00A0' || c = '\u1680' || (0x2000 ≤ c.toNat && c.toNat ≤ 0x200A) ||
  c = '\u2028' || c = '\u2029' || c = '\u202F' || c = '\u205F' ||
  c = '\u3000' || c = '\uFEFF'

/-- `'0' <= c && c <= '9'` (string comparison in the source; at end of input
`currentToken()` is `''`, handled separately at each use site). -/
def isDigitCh (c : Char) : Bool := '0' ≤ c && c ≤ '9'

namespace Parser

/-- The whitespace-skipping loop inside `consume`: `while (current is one of
" ", "\t", "\n", "\r") pos++`. -/
def skipWs4 : List Char → List Char
  | [] => []
  | c :: rest => if isWs4 c then skipWs4 rest else c :: rest

/-- `consumeWhitespace()`: `while (/\s/.test(this.currentToken())) this.consume()`.
`/\s/.test('')` is `false`, so the loop stops at end of input.  (Each inner
`consume()` also runs its own four-character skip; the composite effect is
exactly: drop leading `\s` characters.) -/
def consumeWhitespace : List Char → List Char
  | [] => []
  | c :: rest => if isJsWs c then consumeWhitespace rest else c :: rest

/-- `consume(expected)` with an argument: throw unless the current character
is `expected`; then `pos++` and skip the four whitespace characters. -/
def consume (c : Char) (s : List Char) : Except ParseError (List Char) :=
  if s.head? = some c then .ok (skipWs4 s.tail) else .error (.expectedChar c)

/-- `consume()` without an argument: unconditionally `pos++` (a no-op past
the end of input) and skip the four whitespace characters. -/
def advance (s : List Char) : List Char := skipWs4 s.tail

/-- JS `parseInt(string, 16)`: skip leading whitespace, read an optional
sign, strip an optional `0x`/`0X` prefix, then take the longest prefix of
hexadecimal digits — `none` (NaN) only when that prefix is empty.  Trailing
non-hex characters are ignored, which is why `parseInt("12xy", 16) = 0x12`. -/
def hexDigitVal (c : Char) : Option Nat :=
  let n := c.toNat
  if isDigitCh c then some (n - 48)
  else if 97 ≤ n && n ≤ 102 then some (n - 87)
  else if 65 ≤ n && n ≤ 70 then some (n - 55)
  else none

def isHexDigitCh (c : Char) : Bool := (hexDigitVal c).isSome

def hexChars2Nat (ds : List Char) : Nat :=
  ds.foldl (fun acc c => 16 * acc + ((hexDigitVal c).getD 0)) 0

def parseIntHex (cs : List Char) : Option Int :=
  let s1 := cs.dropWhile isJsWs
  let (sgn, s2) : Int × List Char :=
    match s1 with
    | '+' :: r => (1, r)
    | '-' :: r => (-1, r)
    | _ => (1, s1)
  let s3 :=
    match s2 with
    | '0' :: c :: r => if c = 'x' || c = 'X' then r else s2
    | _ => s2
  let ds := s3.takeWhile isHexDigitCh
  if ds = [] then none else some (sgn * (hexChars2Nat ds : Int))

/-- `String.fromCharCode(code)`: the code is converted with `ToUint16`
(reduction mod 2^16, nonnegative).  A resulting lone-surrogate code unit is
not representable as a `Char` and falls outside the model (no claim produces
one); `Char.ofNat` then yields `'\0'`. -/
def fromCharCode (i : Int) : Char := Char.ofNat (i % 65536).toNat

/-- `parseEscape()`: consume the backslash, dispatch on the escape
character.  Note that each `consume()` also skips whitespace, and that the
`\u` arm reads `input.substr(pos, 4)` and then advances `pos += 4` without
any whitespace skip. -/
def parseEscape (s : List Char) : Except ParseError (Char × List Char) := do
  let s1 ← consume '\\' s
  match s1.head? with
  | some '"' => .ok ('"', advance s1)
  | some '\\' => .ok ('\\', advance s1)
  | some '/' => .ok ('/', advance s1)
  | some 'b' => .ok ('\x08', advance s1)
  | some 'f' => .ok ('\x0c', advance s1)
  | some 'n' => .ok ('\n', advance s1)
  | some 'r' => .ok ('\r', advance s1)
  | some 't' => .ok ('\t', advance s1)
  | some 'u' =>
    let s2 := advance s1
    match parseIntHex (s2.take 4) with
    | none => .error .invalidUnicodeEscape
    | some code => .ok (fromCharCode code, s2.drop 4)
  | _ => .error .invalidEscape

/-- The body of `parseString`'s `while (current !== '"')` loop.  Past the end
of input `currentToken()` is `''`, which is neither `'"'` nor `'\\'`, so the
source appends `''` and increments `pos` forever: that branch recurses on
the same empty remainder, consuming only fuel. -/
def stringLoop : Nat → List Char → List Char → PResult (List Char)
  | 0, _, _ => .fuelOut
  | fuel + 1, acc, s =>
    match s.head? with
    | some '"' => .ok acc s
    | some '\\' =>
      match parseEscape s with
      | .ok (c, s1) => stringLoop fuel (acc ++ [c]) s1
      | .error e => .err e
    | some c => stringLoop fuel (acc ++ [c]) s.tail
    | none => stringLoop fuel acc s.tail

/-- `parseString()`: consume the opening quote, run the character loop, then
consume the closing quote. -/
def parseString (fuel : Nat) (s : List Char) : PResult (List Char) :=
  match consume '"' s with
  | .error e => .err e
  | .ok s1 =>
    match stringLoop fuel [] s1 with
    | .ok str s2 =>
      match consume '"' s2 with
      | .ok s3 => .ok str s3
      | .error e => .err e
    | .err e => .err e
    | .fuelOut => .fuelOut

/-- The `while (current is a digit)` loop of `parseDigits`.  Each iteration
appends the digit and runs `consume()` (which also skips whitespace). -/
def digitsLoop : Nat → List Char → List Char → PResult (List Char)
  | 0, _, _ => .fuelOut
  | fuel + 1, acc, s =>
    match s.head? with
    | some c => if isDigitCh c then digitsLoop fuel (acc ++ [c]) (advance s) else .ok acc s
    | none => .ok acc s

/-- `parseDigits()`: `0` alone (no loop — the source of the `007` behavior),
or a `1`-`9` digit followed by the digit loop; anything else throws. -/
def parseDigits (fuel : Nat) (s : List Char) : PResult (List Char) :=
  match s.head? with
  | some '0' => .ok ['0'] (advance s)
  | some c =>
    if '1' ≤ c && c ≤ '9' then digitsLoop fuel [c] (advance s)
    else .err .invalidNumber
  | none => .err .invalidNumber

/-- The exact-decimal meaning of `parseFloat` on the collected lexeme
`[-] digits [. digits] [e|E [+|-] digits]` (the only shapes `parseNumber`
builds): the pair `(mant, scale)` denoting `mant / 10 ^ scale`.  Malformed
lexemes (never produced) read as `(0, 0)`. -/
def digits2Nat (ds : List Char) : Nat :=
  ds.foldl (fun acc c => 10 * acc + (c.toNat - '0'.toNat)) 0

def parseFloatModel (s : List Char) : Int × Nat :=
  let (neg, s1) : Bool × List Char :=
    match s with
    | '-' :: r => (true, r)
    | _ => (false, s)
  let ids := s1.takeWhile isDigitCh
  let s2 := s1.dropWhile isDigitCh
  let (fds, s3) : List Char × List Char :=
    match s2 with
    | '.' :: r => (r.takeWhile isDigitCh, r.dropWhile isDigitCh)
    | _ => ([], s2)
  let ex : Int :=
    match s3 with
    | c :: r =>
      if c = 'e' || c = 'E' then
        match r with
        | '+' :: r2 => (digits2Nat (r2.takeWhile isDigitCh) : Int)
        | '-' :: r2 => -(digits2Nat (r2.takeWhile isDigitCh) : Int)
        | _ => (digits2Nat (r.takeWhile isDigitCh) : Int)
      else 0
    | [] => 0
  let sgn : Int := if neg then -1 else 1
  let mant : Int := sgn * (digits2Nat (ids ++ fds) : Int)
  let e10 : Int := ex - (fds.length : Int)
  if 0 ≤ e10 then (mant * (10 : Int) ^ e10.toNat, 0) else (mant, (-e10).toNat)

/-- `parseNumber()`: optional `-`, integer digits, optional fraction,
optional exponent; the collected lexeme goes through `parseFloat`.  Each
`consume` skips trailing whitespace, so (faithfully) whitespace may be
skipped in the middle of a numeric literal. -/
def parseNumber (fuel : Nat) (s : List Char) : PResult JsonValue :=
  let (pfx, s0) : List Char × List Char :=
    if s.head? = some '-' then (['-'], skipWs4 s.tail) else ([], s)
  match parseDigits fuel s0 with
  | .ok ids s1 =>
    let step2 : PResult (List Char) :=
      if s1.head? = some '.' then
        match parseDigits fuel (skipWs4 s1.tail) with
        | .ok fds s2 => .ok (ids ++ '.' :: fds) s2
        | .err e => .err e
        | .fuelOut => .fuelOut
      else .ok ids s1
    match step2 with
    | .ok lex2 s2 =>
      if s2.head? = some 'e' || s2.head? = some 'E' then
        let ec := s2.head?.getD 'e'
        let s3 := advance s2
        let (sg, s4) : List Char × List Char :=
          if s3.head? = some '+' then (['+'], advance s3)
          else if s3.head? = some '-' then (['-'], advance s3)
          else ([], s3)
        match parseDigits fuel s4 with
        | .ok eds s5 =>
          let lex := pfx ++ lex2 ++ ec :: (sg ++ eds)
          .ok (.num (parseFloatModel lex).1 (parseFloatModel lex).2) s5
        | .err e => .err e
        | .fuelOut => .fuelOut
      else
        let lex := pfx ++ lex2
        .ok (.num (parseFloatModel lex).1 (parseFloatModel lex).2) s2
    | .err e => .err e
    | .fuelOut => .fuelOut
  | .err e => .err e
  | .fuelOut => .fuelOut

/-- `parseTrue()`: consume `t`, `r`, `u`, `e` in order. -/
def parseTrue (s : List Char) : Except ParseError (List Char) := do
  let s ← consume 't' s
  let s ← consume 'r' s
  let s ← consume 'u' s
  consume 'e' s

/-- `parseFalse()`: consume `f`, `a`, `l`, `s`, `e` in order. -/
def parseFalse (s : List Char) : Except ParseError (List Char) := do
  let s ← consume 'f' s
  let s ← consume 'a' s
  let s ← consume 'l' s
  let s ← consume 's' s
  consume 'e' s

/-- `parseNull()`: consume `n`, `u`, `l`, `l` in order. -/
def parseNull (s : List Char) : Except ParseError (List Char) := do
  let s ← consume 'n' s
  let s ← consume 'u' s
  let s ← consume 'l' s
  consume 'l' s

/-- `obj[key] = value` on a JS object: overwrite in place when the key
exists (enumeration order keeps the key's original position), otherwise
append — the last-write-wins policy. -/
def insertPair (props : List (List Char × JsonValue)) (k : List Char) (v : JsonValue) :
    List (List Char × JsonValue) :=
  match props with
  | [] => [(k, v)]
  | (k0, v0) :: rest => if k0 = k then (k0, v) :: rest else (k0, v0) :: insertPair rest k v

/-- Key lookup in the decoded property list (JS property read). -/
def lookupKey (props : List (List Char × JsonValue)) (k : List Char) : Option JsonValue :=
  match props with
  | [] => none
  | (k0, v0) :: rest => if k0 = k then some v0 else lookupKey rest k

/-- `parsePair()`: a string key, a `:`, then a value (`pv` is the
`parseValue` of the enclosing recursion, fuel already applied). -/
def parsePair (pv : List Char → PResult JsonValue) (fuel : Nat) (s : List Char) :
    PResult (List Char × JsonValue) :=
  match parseString fuel s with
  | .ok key s1 =>
    match consume ':' s1 with
    | .ok s2 =>
      match pv s2 with
      | .ok v s3 => .ok (key, v) s3
      | .err e => .err e
      | .fuelOut => .fuelOut
    | .error e => .err e
  | .err e => .err e
  | .fuelOut => .fuelOut

/-- The `while (current !== '}')` loop of `parseObject`. -/
def objectLoop : Nat → (List Char → PResult JsonValue) →
    List (List Char × JsonValue) → List Char → PResult (List (List Char × JsonValue))
  | 0, _, _, _ => .fuelOut
  | fuel + 1, pv, props, s =>
    if s.head? = some '}' then .ok props s
    else
      match parsePair pv fuel s with
      | .ok (k, v) s1 =>
        let props2 := insertPair props k v
        if s1.head? = some ',' then
          match consume ',' s1 with
          | .ok s2 => objectLoop fuel pv props2 s2
          | .error e => .err e
        else if s1.head? ≠ some '}' then .err .invalidObject
        else objectLoop fuel pv props2 s1
      | .err e => .err e
      | .fuelOut => .fuelOut

/-- `parseObject()`: consume `{`, loop pairs until `}`, consume `}`. -/
def parseObject (fuel : Nat) (pv : List Char → PResult JsonValue) (s : List Char) :
    PResult JsonValue :=
  match consume '{' s with
  | .error e => .err e
  | .ok s1 =>
    match objectLoop fuel pv [] s1 with
    | .ok props s2 =>
      match consume '}' s2 with
      | .ok s3 => .ok (.obj props) s3
      | .error e => .err e
    | .err e => .err e
    | .fuelOut => .fuelOut

/-- The `while (current !== ']')` loop of `parseArray`. -/
def arrayLoop : Nat → (List Char → PResult JsonValue) →
    List JsonValue → List Char → PResult (List JsonValue)
  | 0, _, _, _ => .fuelOut
  | fuel + 1, pv, acc, s =>
    if s.head? = some ']' then .ok acc s
    else
      match pv s with
      | .ok v s1 =>
        let acc2 := acc ++ [v]
        if s1.head? = some ',' then
          match consume ',' s1 with
          | .ok s2 => arrayLoop fuel pv acc2 s2
          | .error e => .err e
        else if s1.head? ≠ some ']' then .err .invalidArray
        else arrayLoop fuel pv acc2 s1
      | .err e => .err e
      | .fuelOut => .fuelOut

/-- `parseArray()`: consume `[`, loop values until `]`, consume `]`. -/
def parseArray (fuel : Nat) (pv : List Char → PResult JsonValue) (s : List Char) :
    PResult JsonValue :=
  match consume '[' s with
  | .error e => .err e
  | .ok s1 =>
    match arrayLoop fuel pv [] s1 with
    | .ok elems s2 =>
      match consume ']' s2 with
      | .ok s3 => .ok (.arr elems) s3
      | .error e => .err e
    | .err e => .err e
    | .fuelOut => .fuelOut

/-- `parseValue()`: single-character lookahead dispatch, exactly the
source's `switch (this.currentToken())`; the default branch (including end
of input, where `currentToken()` is `''`) throws `Invalid JSON value`. -/
def parseValue : Nat → List Char → PResult JsonValue
  | 0, _ => .fuelOut
  | fuel + 1, s =>
    match s.head? with
    | some '{' => parseObject fuel (fun t => parseValue fuel t) s
    | some '[' => parseArray fuel (fun t => parseValue fuel t) s
    | some '"' =>
      match parseString fuel s with
      | .ok str s1 => .ok (.str str) s1
      | .err e => .err e
      | .fuelOut => .fuelOut
    | some '-' | some '0' | some '1' | some '2' | some '3' | some '4'
    | some '5' | some '6' | some '7' | some '8' | some '9' => parseNumber fuel s
    | some 't' =>
      match parseTrue s with
      | .ok s1 => .ok (.bool true) s1
      | .error e => .err e
    | some 'f' =>
      match parseFalse s with
      | .ok s1 => .ok (.bool false) s1
      | .error e => .err e
    | some 'n' =>
      match parseNull s with
      | .ok s1 => .ok (.null) s1
      | .error e => .err e
    | _ => .err .invalidValue

/-- `parse()`: skip whitespace, parse one value, skip whitespace, and fail
on any remaining input (`hasNext()` runs one more `consumeWhitespace` and
checks `currentToken() !== ''`). -/
def parse (fuel : Nat) (input : List Char) : PResult JsonValue :=
  match parseValue fuel (consumeWhitespace input) with
  | .ok v s1 =>
    let s2 := consumeWhitespace s1
    let s3 := consumeWhitespace s2
    if s3 ≠ [] then .err .trailingToken else .ok v s3
  | r => r

end Parser

/-- `EJson.decode(json)`: construct a parser over the input and run
`parse()` (fuel made explicit, see the header). -/
def decode (fuel : Nat) (json : List Char) : PResult JsonValue :=
  Parser.parse fuel json

/-!
## The encoder

`EValue` is the tagged model of the host (JavaScript) values `Encoder.encode`
accepts: arrays, `null` (`undefined` behaves identically inside `encodeValue`
but differs at the top level, so the model's `null` is JS `null`), `Date`
objects (carried as their `toString()` text), numbers, strings, plain objects
(whose inherited `toString()` is the default `"[object Object]"`), booleans,
and zero-argument callables carried with the value they return.  `NaN`
numbers, `Symbol`/`BigInt` values and objects with custom `valueOf`/
`toString` are outside the model (no claim exercises them).
-/

inductive EValue where
  | null
  | bool (b : Bool)
  | num (mant : Int) (scale : Nat)
  | str (s : List Char)
  | date (s : List Char)
  | func (returns : EValue)
  | arr (elems : List EValue)
  | obj (props : List (List Char × EValue))

/-- The two `throw` sites of the encoder, plus the fuel marker of the
embedding (`encodeValue`'s recursion is genuinely well-founded on `EValue`;
fuel is used only to keep every definition kernel-computable). -/
inductive EncodeError where
  /-- `encode()`: "Invalid Json, json should start with [] or \x7b\x7d". -/
  | invalidInput
  /-- `encodeValue()` falling through the `switch`: "Unexpected value: …". -/
  | unexpectedValue
  | fuelOut
deriving DecidableEq, Repr

/-- The dynamic value `encodeValue` returns before the caller coerces it
into a string with `+=` or a template literal: a string, a raw number, a raw
boolean — or a function, which the callers test for (`typeof val ===
'function'`) and skip.  `encodeValue` never actually returns a function
(`encodeFunction` re-encodes the call's result), which is proved below. -/
inductive JsDyn where
  | str (s : List Char)
  | numv (mant : Int) (scale : Nat)
  | boolv (b : Bool)
  | funcv
deriving DecidableEq, Repr

/-- `typeof val === 'function'` on an `encodeValue` result. -/
def isFunc : JsDyn → Bool
  | .funcv => true
  | _ => false

namespace Encoder

/-- `Array.isArray(value)`. -/
def isArrayV : EValue → Bool
  | .arr _ => true
  | _ => false

/-- JS `typeof value`, as text.  `typeof null` is `"object"`. -/
def typeofStr : EValue → List Char
  | .null => "object".toList
  | .bool _ => "boolean".toList
  | .num _ _ => "number".toList
  | .str _ => "string".toList
  | .date _ => "object".toList
  | .func _ => "function".toList
  | .arr _ => "object".toList
  | .obj _ => "object".toList

/-- Decimal digit character for `d < 10`. -/
def digitChar (d : Nat) : Char :=
  match d with
  | 0 => '0' | 1 => '1' | 2 => '2' | 3 => '3' | 4 => '4'
  | 5 => '5' | 6 => '6' | 7 => '7' | 8 => '8' | _ => '9'

/-- Decimal digits of `n`, most significant first (structural on fuel; any
fuel above the digit count is enough, and `natChars` supplies `n + 1`). -/
def natCharsAux : Nat → Nat → List Char
  | 0, _ => []
  | fuel + 1, n => if n = 0 then [] else natCharsAux fuel (n / 10) ++ [digitChar (n % 10)]

def natChars (n : Nat) : List Char :=
  if n = 0 then ['0'] else natCharsAux (n + 1) n

/-- `String(i)` for an integer-valued number: optional minus sign and
decimal digits. -/
def intChars (i : Int) : List Char :=
  if i < 0 then '-' :: natChars i.natAbs else natChars i.natAbs

/-- Remove trailing `'0'` characters (of a fractional part). -/
def stripZeros (ds : List Char) : List Char :=
  (ds.reverse.dropWhile (fun c => c = '0')).reverse

/-- `String(n)` under the exact-decimal abstraction: plain decimal
notation, fractional digits without trailing zeros.  (The exponent-notation
thresholds of `Number#toString`, |n| ≥ 1e21 or |n| < 1e-6, are outside the
abstraction; every number the claims exercise has `scale = 0` and magnitude
at most 2^53, where this agrees with JS exactly.) -/
def jsNumToString (mant : Int) (scale : Nat) : List Char :=
  if scale = 0 then intChars mant
  else
    let digs0 := natChars mant.natAbs
    let digs := List.replicate (scale + 1 - digs0.length) '0' ++ digs0
    let ip := digs.take (digs.length - scale)
    let fp := stripZeros (digs.drop (digs.length - scale))
    (if mant < 0 then ['-'] else []) ++ (if fp = [] then ip else ip ++ '.' :: fp)

/-- The string-concatenation coercion applied to an `encodeValue` result
when it is spliced into the output (`arr += val`, `` `"${key}":${val}` ``).
`JsDyn.funcv` never reaches this point (functions are skipped; and
`encodeValue` never returns one). -/
def toText : JsDyn → List Char
  | .str s => s
  | .numv mant scale => jsNumToString mant scale
  | .boolv b => if b then "true".toList else "false".toList
  | .funcv => "function".toList

/-- `withDoubleQuotes(value)`. -/
def withDoubleQuotes (s : List Char) : List Char := '"' :: s ++ ['"']

/-- ES `ToNumber` on a string — the test `!isNaN(+value)` for string
values: `true` iff the trimmed string is empty or a string numeric literal
(signed decimal/`Infinity`, or unsigned `0x`/`0o`/`0b` literal). -/
def trimJsWs (s : List Char) : List Char :=
  ((s.dropWhile isJsWs).reverse.dropWhile isJsWs).reverse

def isOctCh (c : Char) : Bool := '0' ≤ c && c ≤ '7'
def isBinCh (c : Char) : Bool := c = '0' || c = '1'

/-- An `ExponentPart` or nothing, ending the literal. -/
def expTail : List Char → Bool
  | [] => true
  | c :: r =>
    (c = 'e' || c = 'E') &&
      (match r with
       | '+' :: r2 => !r2.isEmpty && r2.all isDigitCh
       | '-' :: r2 => !r2.isEmpty && r2.all isDigitCh
       | _ => !r.isEmpty && r.all isDigitCh)

/-- `StrUnsignedDecimalLiteral`: `Infinity`, or digits with an optional
fraction and exponent (at least one digit overall). -/
def unsignedDec (t : List Char) : Bool :=
  t = "Infinity".toList ||
  (let ids := t.takeWhile isDigitCh
   let r := t.dropWhile isDigitCh
   match r with
   | '.' :: r2 =>
     let fds := r2.takeWhile isDigitCh
     let r3 := r2.dropWhile isDigitCh
     (!ids.isEmpty || !fds.isEmpty) && expTail r3
   | _ => !ids.isEmpty && expTail r)

def numericStr (s : List Char) : Bool :=
  let t := trimJsWs s
  t.isEmpty ||
  (match t with
   | '+' :: r => unsignedDec r
   | '-' :: r => unsignedDec r
   | '0' :: c :: r =>
     if c = 'x' || c = 'X' then !r.isEmpty && r.all Parser.isHexDigitCh
     else if c = 'o' || c = 'O' then !r.isEmpty && r.all isOctCh
     else if c = 'b' || c = 'B' then !r.isEmpty && r.all isBinCh
     else unsignedDec t
   | _ => unsignedDec t)

mutual

/-- `encodeValue(value)`, dispatching in the source's order:

1. `Array.isArray(value)` → `encodeArray`;
2. `value === null || value === undefined` → the string `'null'`;
3. `value instanceof Date` → its `toString()` in double quotes;
4. `!isNaN(+value)` → **return the raw value unchanged**.  This catches
   every number (`NaN` is outside the model), every numeric string, and —
   crucially — both booleans, since `+true` is `1` and `+false` is `0`; the
   later `case 'boolean'` of the `switch` (which would return the quoted
   string `'"true"'`/`'"false"'`) is therefore unreachable;
5. the `switch (typeof value)`: strings are wrapped in double quotes with
   no escaping, plain objects go to `encodeObject` (every `EValue.obj` is a
   plain object, so `+value` is `NaN` via `"[object Object]"`), functions go
   to `encodeFunction`, and the fall-through throws `Unexpected value`
   (unreachable for the modelled shapes). -/
def encodeValue : Nat → EValue → Except EncodeError JsDyn
  | 0, _ => .error .fuelOut
  | fuel + 1, v =>
    match v with
    | .arr xs => (encodeArray (fun x => encodeValue fuel x) xs).map .str
    | .null => .ok (.str ("null".toList))
    | .date s => .ok (.str (withDoubleQuotes s))
    | .num mant scale => .ok (.numv mant scale)
    | .str s =>
      if numericStr s then .ok (.str s)
      else .ok (.str (withDoubleQuotes s))
    | .obj ps => (encodeObject (fun x => encodeValue fuel x) ps).map .str
    | .bool b => .ok (.boolv b)
    | .func body => encodeFunction (fun x => encodeValue fuel x) body

/-- `encodeFunction(val)`: call the function and re-encode its result
(the result of `encodeValue` — never itself a function). -/
def encodeFunction (ev : EValue → Except EncodeError JsDyn) (returns : EValue) :
    Except EncodeError JsDyn :=
  ev returns

/-- The `for (const value of values)` loop of `encodeArray`, with the
source's element counter `i` and `values.length`: a skipped element (one
whose encoded value is a function — in fact never) does not increment `i`;
after an appended element, `,` is emitted while `i <= length - 1` and `]`
otherwise.  `n - 1` is JS `length - 1`; for `length = 0` it is `-1` there
and `0` here, and in both cases `i = 1 ≤ length - 1` is false, so the loop
of an empty array emits nothing at all — the `[` opener never gains a `]`. -/
def encodeArrayGo (ev : EValue → Except EncodeError JsDyn) (n : Nat) :
    List EValue → Nat → List Char → Except EncodeError (List Char)
  | [], _, acc => .ok acc
  | x :: rest, i, acc =>
    match ev x with
    | .error e => .error e
    | .ok val =>
      if isFunc val then encodeArrayGo ev n rest i acc
      else
        let acc2 := acc ++ toText val
        let i2 := i + 1
        let acc3 := if i2 ≤ n - 1 then acc2 ++ [','] else acc2 ++ [']']
        encodeArrayGo ev n rest i2 acc3

/-- `encodeArray(values)`: start from `'['` and run the loop. -/
def encodeArray (ev : EValue → Except EncodeError JsDyn) (values : List EValue) :
    Except EncodeError (List Char) :=
  encodeArrayGo ev values.length values 0 ['[']

/-- The `for (const [key, value] of entries)` loop of `encodeObject`, with
the same counter logic as `encodeArrayGo` (the skip branch also runs
`console.log(val)`, a diagnostic with no effect on the output). -/
def encodeObjectGo (ev : EValue → Except EncodeError JsDyn) (n : Nat) :
    List (List Char × EValue) → Nat → List Char → Except EncodeError (List Char)
  | [], _, acc => .ok acc
  | (key, x) :: rest, i, acc =>
    match ev x with
    | .error e => .error e
    | .ok val =>
      if isFunc val then encodeObjectGo ev n rest i acc
      else
        let pair := '"' :: key ++ '"' :: ':' :: toText val
        let acc2 := acc ++ pair
        let i2 := i + 1
        let acc3 := if i2 ≤ n - 1 then acc2 ++ [','] else acc2 ++ ['}']
        encodeObjectGo ev n rest i2 acc3

/-- `encodeObject(value)`.  The source first checks `'toString' in value`
(true for every object, by inheritance) and compares `value.toString()`
with `"[object Object]"`; every `EValue.obj` is a plain object literal, so
its inherited `toString()` is exactly `"[object Object]"` and the custom-
conversion branch is never taken.  Then `Object.entries` is traversed with
the loop above. -/
def encodeObject (ev : EValue → Except EncodeError JsDyn)
    (props : List (List Char × EValue)) : Except EncodeError (List Char) :=
  let objectToString := "[object Object]".toList
  if objectToString ≠ "[object Object]".toList then
    .ok (withDoubleQuotes objectToString)
  else
    encodeObjectGo ev props.length props 0 ['{']

end

/-- `encode(input)`: reject a top-level value that is neither an array nor
of `typeof` `"object"` (note `typeof null === 'object'`: `null` passes),
then return `encodeValue`'s result, coerced to a string (`as string`; at
the top level the result is always already a string). -/
def encode (fuel : Nat) (input : EValue) : Except EncodeError (List Char) :=
  if !isArrayV input && typeofStr input ≠ "object".toList then .error .invalidInput
  else (encodeValue fuel input).map toText

end Encoder

/-!
## Relating encoder inputs to decoded values
-/

/-- The decoded value an encoder input denotes, shape for shape.  Only the
shapes `Good` admits matter to the round-trip theorem; for the others
(`date`, `func`) any structure-respecting image would do. -/
def toJson : EValue → JsonValue
  | .null => .null
  | .bool b => .bool b
  | .num mant scale => .num mant scale
  | .str s => .str s
  | .date s => .str s
  | .func v => toJson v
  | .arr xs => .arr (xs.attach.map (fun ⟨x, _hx⟩ => toJson x))
  | .obj ps => .obj (ps.attach.map (fun ⟨(k, v), _hp⟩ => (k, toJson v)))
decreasing_by
  · simp only [EValue.func.sizeOf_spec]
    omega
  · have h1 := List.sizeOf_lt_of_mem _hx
    simp only [EValue.arr.sizeOf_spec]
    omega
  · have h1 := List.sizeOf_lt_of_mem _hp
    simp only [Prod.mk.sizeOf_spec] at h1
    simp only [EValue.obj.sizeOf_spec]
    omega

/-- A string whose quoted form survives the parser unchanged: no `"` or `\`
(the encoder does not escape, and the parser would treat them as the
closing quote or an escape), and no leading `" "`/`"\t"`/`"\n"`/`"\r"`
(the `consume` of the opening quote skips those — claim C10). -/
def cleanStr (s : List Char) : Bool :=
  s.all (fun c => !(c = '"') && !(c = '\\')) &&
  (match s with
   | [] => true
   | c :: _ => !isWs4 c)

/-- The domain on which `decode ∘ encode` reproduces the value exactly:
null, booleans, integer numbers of magnitude at most 2^53 (where the
exact-decimal abstraction of binary64 is the identity and `String(n)` is
plain decimal), clean non-numeric strings (a numeric string is emitted
unquoted and comes back as a number; an empty or whitespace string is
numeric), and nonempty arrays/objects of such values (an empty container
encodes to a lone opening bracket — claim C4; duplicate keys cannot exist
on a JS object). -/
inductive Good : EValue → Prop where
  | null : Good .null
  | bool (b : Bool) : Good (.bool b)
  | num (mant : Int) : mant.natAbs ≤ 2 ^ 53 → Good (.num mant 0)
  | str (s : List Char) : cleanStr s = true → Encoder.numericStr s = false →
      Good (.str s)
  | arr (xs : List EValue) : xs ≠ [] → (∀ x ∈ xs, Good x) → Good (.arr xs)
  | obj (ps : List (List Char × EValue)) : ps ≠ [] → (ps.map Prod.fst).Nodup →
      (∀ p ∈ ps, cleanStr p.1 = true) → (∀ p ∈ ps, Good p.2) → Good (.obj ps)

/-- Top-level values `encode` accepts among the `Good` shapes. -/
def isContainerV : EValue → Bool
  | .arr _ => true
  | .obj _ => true
  | _ => false

/-- A remainder the parser may legitimately see after a complete value:
nothing, or a separator/closer (`,`, `]`, `}`).  None of these is
whitespace, a digit, `.`, `e` or `E`, so neither the trailing whitespace
skip of `consume` nor the number continuation can eat into it. -/
def restOk (r : List Char) : Prop :=
  r = [] ∨ ∃ c t, r = c :: t ∧ (c = ',' ∨ c = ']' ∨ c = '}')

/-- `sepBy sep [x₁, …, xₙ] = x₁ ++ sep ++ … ++ sep ++ xₙ`. -/
def sepBy (sep : List Char) : List (List Char) → List Char
  | [] => []
  | [x] => x
  | x :: rest => x ++ sep ++ sepBy sep rest

/-- Nothing, or a head that is not one of the four skipped whitespace chars. -/
def headNotWs4 (r : List Char) : Prop := ∀ c t, r = c :: t → isWs4 c = false

/-- Characters that can start the text of an encoded `Good` value. -/
def isValueStart (c : Char) : Bool :=
  c = '{' || c = '[' || c = '"' || c = '-' || isDigitCh c ||
  c = 't' || c = 'f' || c = 'n'

/-!
## Supporting lemmas
-/

theorem char_eq_of_toNat (c d : Char) (h : c.val.toNat = d.val.toNat) : c = d :=
  Char.ext (UInt32.ext h)

theorem char_digit_cases (c : Char) (h : isDigitCh c = true) :
    c = '0' ∨ c = '1' ∨ c = '2' ∨ c = '3' ∨ c = '4' ∨
    c = '5' ∨ c = '6' ∨ c = '7' ∨ c = '8' ∨ c = '9' := by
  simp only [isDigitCh, Bool.and_eq_true, decide_eq_true_eq] at h
  obtain ⟨h1, h2⟩ := h
  have v1 : 48 ≤ c.val.toNat := h1
  have v2 : c.val.toNat ≤ 57 := h2
  interval_cases hv : c.val.toNat <;>
    first
    | (have hc : c = '0' := char_eq_of_toNat c '0' hv; tauto)
    | (have hc : c = '1' := char_eq_of_toNat c '1' hv; tauto)
    | (have hc : c = '2' := char_eq_of_toNat c '2' hv; tauto)
    | (have hc : c = '3' := char_eq_of_toNat c '3' hv; tauto)
    | (have hc : c = '4' := char_eq_of_toNat c '4' hv; tauto)
    | (have hc : c = '5' := char_eq_of_toNat c '5' hv; tauto)
    | (have hc : c = '6' := char_eq_of_toNat c '6' hv; tauto)
    | (have hc : c = '7' := char_eq_of_toNat c '7' hv; tauto)
    | (have hc : c = '8' := char_eq_of_toNat c '8' hv; tauto)
    | (have hc : c = '9' := char_eq_of_toNat c '9' hv; tauto)

/-- On a suffix containing neither `"` nor `\` the string loop consumes all
its fuel: the end-of-input branch (`currentToken()` is `''`) keeps
incrementing `pos` without ever matching the closing quote.  This is the
source's infinite loop on an unterminated string literal. -/
theorem stringLoop_out (fuel : Nat) : ∀ acc s, (∀ c ∈ s, c ≠ '"' ∧ c ≠ '\\') →
    Parser.stringLoop fuel acc s = .fuelOut := by
  induction fuel with
  | zero => intro acc s h; rfl
  | succ f ih =>
    intro acc s h
    cases s with
    | nil =>
      show Parser.stringLoop f acc [] = _
      exact ih acc [] (by simp)
    | cons c t =>
      obtain ⟨hq, hb⟩ := h c (List.mem_cons_self c t)
      simp only [Parser.stringLoop, List.head?_cons, List.tail_cons]
      exact ih _ _ (fun x hx => h x (List.mem_cons_of_mem _ hx))

/-- `encodeValue` never returns a value of type `function`: every branch
returns a string, a raw number or a raw boolean, and `encodeFunction`
recurses into `encodeValue` on the call's result.  Hence the `typeof val
=== 'function'` skip in `encodeArray`/`encodeObject` never fires. -/
theorem encodeValue_no_funcv : ∀ fuel (v : EValue) (d : JsDyn),
    Encoder.encodeValue fuel v = .ok d → isFunc d = false := by
  intro fuel
  induction fuel with
  | zero => intro v d h; exact absurd h (by simp [Encoder.encodeValue])
  | succ f ih =>
    intro v d h
    cases v with
    | arr xs =>
      simp only [Encoder.encodeValue] at h
      cases harr : Encoder.encodeArray (fun x => Encoder.encodeValue f x) xs with
      | ok s => rw [harr] at h; simp only [Except.map] at h; cases h; rfl
      | error e => rw [harr] at h; simp [Except.map] at h
    | null => cases h; rfl
    | date s => cases h; rfl
    | num m sc => cases h; rfl
    | str s =>
      simp only [Encoder.encodeValue] at h
      by_cases hn : Encoder.numericStr s = true
      · rw [if_pos hn] at h; cases h; rfl
      · rw [if_neg hn] at h; cases h; rfl
    | obj ps =>
      simp only [Encoder.encodeValue] at h
      cases hobj : Encoder.encodeObject (fun x => Encoder.encodeValue f x) ps with
      | ok s => rw [hobj] at h; simp only [Except.map] at h; cases h; rfl
      | error e => rw [hobj] at h; simp [Except.map] at h
    | bool b => cases h; rfl
    | func body =>
      simp only [Encoder.encodeValue, Encoder.encodeFunction] at h
      exact ih body d h

theorem sepBy_cons_cons (sep x y : List Char) (rest : List (List Char)) :
    sepBy sep (x :: y :: rest) = x ++ sep ++ sepBy sep (y :: rest) := rfl

/-- The element loop of `encodeArray`, on elements that all encode to
non-function values, emits the element texts separated by commas and closes
with `]` — the counter `i` equals the number of elements already appended,
and the invariant `n = i + (remaining elements)` makes `i2 ≤ n - 1` hold
exactly when an element follows. -/
theorem encodeArrayGo_sepBy (ev : EValue → Except EncodeError JsDyn) :
    ∀ (xs : List EValue) (ds : List JsDyn),
    List.Forall₂ (fun x d => ev x = Except.ok d ∧ isFunc d = false) xs ds →
    ∀ i acc, xs ≠ [] →
    Encoder.encodeArrayGo ev (i + xs.length) xs i acc =
      .ok (acc ++ sepBy [','] (ds.map Encoder.toText) ++ [']']) := by
  intro xs ds hfa
  induction hfa with
  | nil => intro i acc hne; exact absurd rfl hne
  | @cons x d xs2 ds2 hxd hrest ih =>
    intro i acc _
    obtain ⟨hev, hnf⟩ := hxd
    simp only [Encoder.encodeArrayGo, hev, hnf, Bool.false_eq_true, if_false]
    cases hrest with
    | nil =>
      have hcond : ¬(i + 1 ≤ i + List.length [x] - 1) := by simp
      rw [if_neg hcond]
      simp [Encoder.encodeArrayGo, sepBy]
    | @cons y d2 ys ds3 hyd hrest2 =>
      have hcond : i + 1 ≤ i + List.length (x :: y :: ys) - 1 := by
        simp
        try omega
      rw [if_pos hcond]
      have harg := ih (i + 1) (acc ++ Encoder.toText d ++ [','])
        (by simp)
      have hlen : i + List.length (x :: y :: ys) = (i + 1) + List.length (y :: ys) := by
        simp
        try omega
      rw [hlen]
      rw [harg]
      simp only [List.map_cons, sepBy_cons_cons]
      simp [List.append_assoc]

/-- The pair loop of `encodeObject`: same counter logic as the array loop,
with `"key":value` texts. -/
theorem encodeObjectGo_sepBy (ev : EValue → Except EncodeError JsDyn) :
    ∀ (ps : List (List Char × EValue)) (ds : List JsDyn),
    List.Forall₂ (fun p d => ev p.2 = Except.ok d ∧ isFunc d = false) ps ds →
    ∀ i acc, ps ≠ [] →
    Encoder.encodeObjectGo ev (i + ps.length) ps i acc =
      .ok (acc ++ sepBy [',']
        (List.zipWith (fun p d => '"' :: p.1 ++ '"' :: ':' :: Encoder.toText d) ps ds)
        ++ ['}']) := by
  intro ps ds hfa
  induction hfa with
  | nil => intro i acc hne; exact absurd rfl hne
  | @cons p d ps2 ds2 hpd hrest ih =>
    intro i acc _
    obtain ⟨hev, hnf⟩ := hpd
    obtain ⟨k, x⟩ := p
    simp only [Encoder.encodeObjectGo, hev, hnf, Bool.false_eq_true, if_false]
    cases hrest with
    | nil =>
      have hcond : ¬(i + 1 ≤ i + List.length [(k, x)] - 1) := by simp
      rw [if_neg hcond]
      simp [Encoder.encodeObjectGo, sepBy]
    | @cons q d2 qs ds3 hqd hrest2 =>
      have hcond : i + 1 ≤ i + List.length ((k, x) :: q :: qs) - 1 := by
        simp
        try omega
      rw [if_pos hcond]
      have harg := ih (i + 1) (acc ++ ('"' :: k ++ '"' :: ':' :: Encoder.toText d) ++ [','])
        (by simp)
      have hlen : i + List.length ((k, x) :: q :: qs) = (i + 1) + List.length (q :: qs) := by
        simp
        try omega
      rw [hlen]
      rw [harg]
      simp only [List.zipWith_cons_cons, sepBy_cons_cons]
      simp [List.append_assoc]

/-- Reading a key back after `obj[key] = value` always yields the value
just written, whether or not the key already existed. -/
theorem lookupKey_insertPair (ps : List (List Char × JsonValue)) (k : List Char)
    (v : JsonValue) : Parser.lookupKey (Parser.insertPair ps k v) k = some v := by
  induction ps with
  | nil => simp [Parser.insertPair, Parser.lookupKey]
  | cons p rest ih =>
    obtain ⟨k0, v0⟩ := p
    by_cases hk : k0 = k
    · simp [Parser.insertPair, Parser.lookupKey, hk]
    · simp [Parser.insertPair, Parser.lookupKey, hk, ih]

theorem attach_map_toJson (xs : List EValue) :
    xs.attach.map (fun x => toJson x.1) = xs.map toJson := by
  rw [List.attach_map_coe]

theorem toJson_arr (xs : List EValue) : toJson (.arr xs) = .arr (xs.map toJson) := by
  rw [toJson]
  congr 1
  rw [← attach_map_toJson]

theorem toJson_obj (ps : List (List Char × EValue)) :
    toJson (.obj ps) = .obj (ps.map (fun p => (p.1, toJson p.2))) := by
  rw [toJson]
  congr 1
  rw [show (ps.map (fun p => (p.1, toJson p.2)))
      = ps.attach.map (fun p => (p.1.1, toJson p.1.2)) from (List.attach_map_coe ps _).symm]

/-!
## Round-trip development (C1)
-/


theorem skipWs4_id (r : List Char) (h : headNotWs4 r) : Parser.skipWs4 r = r := by
  cases r with
  | nil => rfl
  | cons c t => simp [Parser.skipWs4, h c t rfl]

theorem restOk_headNotWs4 (r : List Char) (h : restOk r) : headNotWs4 r := by
  rcases h with rfl | ⟨c, t, rfl, hc⟩
  · intro c t hct; cases hct
  · intro c2 t2 hct
    cases hct
    rcases hc with rfl | rfl | rfl <;> decide

theorem consumeWhitespace_id (r : List Char)
    (h : ∀ c t, r = c :: t → isJsWs c = false) : Parser.consumeWhitespace r = r := by
  cases r with
  | nil => rfl
  | cons c t => simp [Parser.consumeWhitespace, h c t rfl]

theorem digit_facts (c : Char) (h : isDigitCh c = true) :
    isWs4 c = false ∧ isJsWs c = false ∧ c ≠ ']' ∧ c ≠ '}' ∧ c ≠ ',' ∧ c ≠ ':' ∧
    c ≠ '.' ∧ c ≠ 'e' ∧ c ≠ 'E' ∧ c ≠ '"' ∧ c ≠ '\\' ∧ c ≠ '-' ∧ c ≠ '+' := by
  rcases char_digit_cases c h with rfl|rfl|rfl|rfl|rfl|rfl|rfl|rfl|rfl|rfl <;> decide

theorem valueStart_facts (c : Char) (h : isValueStart c = true) :
    isWs4 c = false ∧ isJsWs c = false ∧ c ≠ ']' ∧ c ≠ '}' ∧ c ≠ ',' := by
  simp only [isValueStart, Bool.or_eq_true, decide_eq_true_eq] at h
  rcases h with ((((((rfl | rfl) | rfl) | rfl) | hd) | rfl) | rfl) | rfl
  · decide
  · decide
  · decide
  · decide
  · have hf := digit_facts c hd
    exact ⟨hf.1, hf.2.1, hf.2.2.1, hf.2.2.2.1, hf.2.2.2.2.1⟩
  · decide
  · decide
  · decide


theorem digitChar_spec (d : Nat) (h : d < 10) :
    isDigitCh (Encoder.digitChar d) = true ∧
    (Encoder.digitChar d).toNat - '0'.toNat = d := by
  interval_cases d <;> exact ⟨by decide, by decide⟩

theorem digitChar_pos (d : Nat) (h1 : 1 ≤ d) (h : d < 10) :
    ('1' ≤ Encoder.digitChar d && Encoder.digitChar d ≤ '9') = true := by
  interval_cases d <;> decide

theorem natCharsAux_zero (f : Nat) : Encoder.natCharsAux f 0 = [] := by
  cases f <;> rfl

theorem digits2Nat_append_one (A : List Char) (c : Char) :
    Parser.digits2Nat (A ++ [c]) = 10 * Parser.digits2Nat A + (c.toNat - '0'.toNat) := by
  simp [Parser.digits2Nat, List.foldl_append]

theorem natCharsAux_spec : ∀ f n, n < 10 ^ f →
    (∀ c ∈ Encoder.natCharsAux f n, isDigitCh c = true) ∧
    Parser.digits2Nat (Encoder.natCharsAux f n) = n ∧
    (0 < n → ∃ c t, Encoder.natCharsAux f n = c :: t ∧ isDigitCh c = true ∧ c ≠ '0') := by
  intro f
  induction f with
  | zero =>
    intro n hn
    have hn0 : n = 0 := by omega
    subst hn0
    exact ⟨by simp [Encoder.natCharsAux], rfl, fun h => absurd h (by omega)⟩
  | succ f ih =>
    intro n hn
    by_cases hz : n = 0
    · subst hz
      exact ⟨by simp [natCharsAux_zero], by rw [natCharsAux_zero]; rfl,
        fun h => absurd h (by omega)⟩
    · have hstep : Encoder.natCharsAux (f + 1) n
          = Encoder.natCharsAux f (n / 10) ++ [Encoder.digitChar (n % 10)] := by
        simp [Encoder.natCharsAux, hz]
      have hpow : 10 ^ (f + 1) = 10 ^ f * 10 := by ring
      have hdiv : n / 10 < 10 ^ f := by omega
      obtain ⟨ihd, ihv, ihh⟩ := ih (n / 10) hdiv
      have hd10 : n % 10 < 10 := Nat.mod_lt _ (by omega)
      obtain ⟨hdc, hdv⟩ := digitChar_spec (n % 10) hd10
      refine ⟨?_, ?_, ?_⟩
      · intro c hc
        rw [hstep] at hc
        rcases List.mem_append.mp hc with hc | hc
        · exact ihd c hc
        · rw [List.mem_singleton.mp hc]; exact hdc
      · rw [hstep, digits2Nat_append_one, ihv, hdv]
        omega
      · intro _
        by_cases hsm : n < 10
        · have hq : n / 10 = 0 := by omega
          rw [hstep, hq, natCharsAux_zero]
          refine ⟨Encoder.digitChar (n % 10), [], by simp, hdc, ?_⟩
          have hm : n % 10 = n := by omega
          intro hcontra
          rw [hcontra] at hdv
          simp at hdv
          omega
        · obtain ⟨c, t, hct, hcd, hc0⟩ := ihh (by omega)
          exact ⟨c, t ++ [Encoder.digitChar (n % 10)], by rw [hstep, hct]; rfl, hcd, hc0⟩


theorem digit_ne_zero_range (c : Char) (hd : isDigitCh c = true) (h0 : c ≠ '0') :
    ('1' ≤ c && c ≤ '9') = true := by
  rcases char_digit_cases c hd with rfl|rfl|rfl|rfl|rfl|rfl|rfl|rfl|rfl|rfl
  · exact absurd rfl h0
  all_goals decide

theorem takeWhile_all (p : Char → Bool) : ∀ l : List Char, (∀ c ∈ l, p c = true) →
    l.takeWhile p = l := by
  intro l h
  induction l with
  | nil => rfl
  | cons c t ih =>
    rw [List.takeWhile_cons, h c (by simp)]
    simp [ih (fun x hx => h x (by simp [hx]))]

theorem dropWhile_all (p : Char → Bool) : ∀ l : List Char, (∀ c ∈ l, p c = true) →
    l.dropWhile p = [] := by
  intro l h
  induction l with
  | nil => rfl
  | cons c t ih =>
    rw [List.dropWhile_cons, h c (by simp)]
    simp [ih (fun x hx => h x (by simp [hx]))]

theorem natChars_spec (n : Nat) :
    (∀ c ∈ Encoder.natChars n, isDigitCh c = true) ∧
    Parser.digits2Nat (Encoder.natChars n) = n ∧
    (∃ c t, Encoder.natChars n = c :: t ∧ isDigitCh c = true) := by
  by_cases h : n = 0
  · subst h
    exact ⟨by decide, rfl, '0', [], rfl, by decide⟩
  · have hlt : n < 10 ^ (n + 1) := by
      calc n < 10 ^ n := Nat.lt_pow_self (by omega) n
      _ ≤ 10 ^ (n + 1) := Nat.pow_le_pow_right (by omega) (by omega)
    obtain ⟨hd, hv, hh⟩ := natCharsAux_spec (n + 1) n hlt
    obtain ⟨c, t, hct, hcd, _⟩ := hh (by omega)
    have hnc : Encoder.natChars n = Encoder.natCharsAux (n + 1) n := by
      simp [Encoder.natChars, h]
    exact ⟨by rw [hnc]; exact hd, by rw [hnc]; exact hv, c, t, by rw [hnc]; exact hct, hcd⟩

theorem natChars_head_range (n : Nat) (h : n ≠ 0) :
    ∃ c t, Encoder.natChars n = c :: t ∧ ('1' ≤ c && c ≤ '9') = true := by
  have hlt : n < 10 ^ (n + 1) := by
    calc n < 10 ^ n := Nat.lt_pow_self (by omega) n
    _ ≤ 10 ^ (n + 1) := Nat.pow_le_pow_right (by omega) (by omega)
  obtain ⟨_, _, hh⟩ := natCharsAux_spec (n + 1) n hlt
  obtain ⟨c, t, hct, hcd, hc0⟩ := hh (by omega)
  have hnc : Encoder.natChars n = Encoder.natCharsAux (n + 1) n := by
    simp [Encoder.natChars, h]
  exact ⟨c, t, by rw [hnc]; exact hct, digit_ne_zero_range c hcd hc0⟩

theorem parseFloatModel_natChars (n : Nat) :
    Parser.parseFloatModel (Encoder.natChars n) = ((n : Int), 0) := by
  obtain ⟨hd, hv, c, t, hct, hcd⟩ := natChars_spec n
  rw [hct]
  have hdall : ∀ x ∈ c :: t, isDigitCh x = true := by rw [← hct]; exact hd
  rw [hct] at hv
  rcases char_digit_cases c hcd with rfl|rfl|rfl|rfl|rfl|rfl|rfl|rfl|rfl|rfl <;>
  · simp [Parser.parseFloatModel, takeWhile_all _ _ hdall, dropWhile_all _ _ hdall, hv]


theorem parseFloatModel_intChars (m : Int) :
    Parser.parseFloatModel (Encoder.intChars m) = (m, 0) := by
  by_cases hm : m < 0
  · obtain ⟨hd, hv, c, t, hct, hcd⟩ := natChars_spec m.natAbs
    have hdall : ∀ x ∈ c :: t, isDigitCh x = true := by rw [← hct]; exact hd
    rw [hct] at hv
    have habs : ((m.natAbs : Int)) = -m := by omega
    rw [show Encoder.intChars m = '-' :: Encoder.natChars m.natAbs by
      simp [Encoder.intChars, hm]]
    rw [hct]
    rcases char_digit_cases c hcd with rfl|rfl|rfl|rfl|rfl|rfl|rfl|rfl|rfl|rfl <;>
    · simp [Parser.parseFloatModel, takeWhile_all _ _ hdall, dropWhile_all _ _ hdall, hv,
        habs]
  · rw [show Encoder.intChars m = Encoder.natChars m.natAbs by simp [Encoder.intChars, hm]]
    rw [parseFloatModel_natChars]
    have habs : ((m.natAbs : Int)) = m := by omega
    rw [habs]


theorem restOk_not_digit (r : List Char) (h : restOk r) :
    ∀ c t, r = c :: t → isDigitCh c = false := by
  rcases h with rfl | ⟨c, t, rfl, hc⟩
  · intro c t hct; cases hct
  · intro c2 t2 hct
    cases hct
    rcases hc with rfl | rfl | rfl <;> decide

theorem skipWs4_digits_rest (ds : List Char) (rest : List Char)
    (hd : ∀ c ∈ ds, isDigitCh c = true) (hr : restOk rest) :
    Parser.skipWs4 (ds ++ rest) = ds ++ rest := by
  cases ds with
  | nil => exact skipWs4_id rest (restOk_headNotWs4 rest hr)
  | cons c t =>
    have := (digit_facts c (hd c (by simp))).1
    simp [Parser.skipWs4, this]

theorem digitsLoop_spec : ∀ (ds : List Char), (∀ c ∈ ds, isDigitCh c = true) →
    ∀ rest, restOk rest → ∀ acc f, ds.length < f →
    Parser.digitsLoop f acc (ds ++ rest) = .ok (acc ++ ds) rest := by
  intro ds
  induction ds with
  | nil =>
    intro _ rest hr acc f hf
    obtain ⟨f2, rfl⟩ : ∃ f2, f = f2 + 1 := ⟨f - 1, by omega⟩
    cases rest with
    | nil => simp [Parser.digitsLoop]
    | cons c t =>
      have hnd := restOk_not_digit _ hr c t rfl
      simp [Parser.digitsLoop, hnd]
  | cons d ds2 ih =>
    intro hd rest hr acc f hf
    obtain ⟨f2, rfl⟩ : ∃ f2, f = f2 + 1 := ⟨f - 1, by omega⟩
    have hdd : isDigitCh d = true := hd d (by simp)
    have hall2 : ∀ c ∈ ds2, isDigitCh c = true := fun c hc => hd c (by simp [hc])
    simp only [List.cons_append, Parser.digitsLoop, List.head?_cons, hdd, if_true]
    rw [show Parser.advance (d :: (ds2 ++ rest)) = Parser.skipWs4 (ds2 ++ rest) from rfl]
    rw [skipWs4_digits_rest ds2 rest hall2 hr]
    rw [ih hall2 rest hr (acc ++ [d]) f2 (by simp at hf; omega)]
    simp

theorem parseDigits_natChars (n : Nat) (rest : List Char) (hr : restOk rest)
    (f : Nat) (hf : (Encoder.natChars n).length ≤ f) :
    Parser.parseDigits f (Encoder.natChars n ++ rest) = .ok (Encoder.natChars n) rest := by
  by_cases hz : n = 0
  · subst hz
    show Parser.parseDigits f ('0' :: rest) = _
    simp only [Parser.parseDigits, List.head?_cons]
    rw [show Parser.advance ('0' :: rest) = Parser.skipWs4 rest from rfl]
    rw [skipWs4_id rest (restOk_headNotWs4 rest hr)]
    rfl
  · obtain ⟨c, t, hct, hrange⟩ := natChars_head_range n hz
    obtain ⟨hd, _, _⟩ := natChars_spec n
    rw [hct] at hd
    have hc0 : c ≠ '0' := by
      intro h
      subst h
      exact absurd hrange (by decide)
    have ht : ∀ x ∈ t, isDigitCh x = true := fun x hx => hd x (by simp [hx])
    rw [hct]
    simp only [List.cons_append, Parser.parseDigits, List.head?_cons, hc0, hrange, if_true]
    rw [show Parser.advance (c :: (t ++ rest)) = Parser.skipWs4 (t ++ rest) from rfl]
    rw [skipWs4_digits_rest t rest ht hr]
    rw [digitsLoop_spec t ht rest hr [c] f (by rw [hct] at hf; simp at hf; omega)]
    simp


theorem restOk_head_ne (r : List Char) (hr : restOk r) (x : Char)
    (hx : x ≠ ',' ∧ x ≠ ']' ∧ x ≠ '}') : r.head? ≠ some x := by
  rcases hr with rfl | ⟨c, t, rfl, hc⟩
  · simp
  · simp only [List.head?_cons, ne_eq, Option.some.injEq]
    intro h
    subst h
    rcases hc with rfl | rfl | rfl
    · exact hx.1 rfl
    · exact hx.2.1 rfl
    · exact hx.2.2 rfl

theorem parseNumber_intChars (m : Int) (rest : List Char) (hr : restOk rest)
    (f : Nat) (hf : (Encoder.natChars m.natAbs).length ≤ f) :
    Parser.parseNumber f (Encoder.intChars m ++ rest) = .ok (.num m 0) rest := by
  have hdot := restOk_head_ne rest hr '.' ⟨by decide, by decide, by decide⟩
  have he := restOk_head_ne rest hr 'e' ⟨by decide, by decide, by decide⟩
  have hE := restOk_head_ne rest hr 'E' ⟨by decide, by decide, by decide⟩
  have heE : ¬((rest.head? = some 'e' || rest.head? = some 'E') = true) := by
    simp only [Bool.or_eq_true, decide_eq_true_eq]
    tauto
  have hpd := parseDigits_natChars m.natAbs rest hr f hf
  have hsw : Parser.skipWs4 (Encoder.natChars m.natAbs ++ rest)
      = Encoder.natChars m.natAbs ++ rest :=
    skipWs4_digits_rest _ rest (natChars_spec m.natAbs).1 hr
  by_cases hm : m < 0
  · have hic : Encoder.intChars m = '-' :: Encoder.natChars m.natAbs := by
      simp [Encoder.intChars, hm]
    rw [hic, List.cons_append]
    simp only [Parser.parseNumber, List.head?_cons, List.tail_cons]
    simp only [if_true]
    rw [hsw, hpd]
    dsimp only
    rw [if_neg hdot]
    dsimp only
    rw [if_neg heE]
    rw [List.singleton_append]
    rw [show ('-' :: Encoder.natChars m.natAbs) = Encoder.intChars m from hic.symm]
    rw [parseFloatModel_intChars]
  · have hic : Encoder.intChars m = Encoder.natChars m.natAbs := by
      simp [Encoder.intChars, hm]
    rw [hic]
    obtain ⟨c, t, hct, hcd⟩ : ∃ c t,
        Encoder.natChars m.natAbs = c :: t ∧ isDigitCh c = true := by
      obtain ⟨_, _, c, t, h1, h2⟩ := natChars_spec m.natAbs
      exact ⟨c, t, h1, h2⟩
    have hcm : c ≠ '-' := by
      have := digit_facts c hcd
      tauto
    have hminus : ¬((Encoder.natChars m.natAbs ++ rest).head? = some '-') := by
      rw [hct]
      simp [hcm]
    simp only [Parser.parseNumber]
    rw [if_neg hminus]
    dsimp only
    rw [hpd]
    dsimp only
    rw [if_neg hdot]
    dsimp only
    rw [if_neg heE]
    rw [List.nil_append]
    rw [show Encoder.natChars m.natAbs = Encoder.intChars m from hic.symm]
    rw [parseFloatModel_intChars]


theorem stringLoop_clean : ∀ (s : List Char), (∀ c ∈ s, c ≠ '"' ∧ c ≠ '\\') →
    ∀ acc r f, s.length < f →
    Parser.stringLoop f acc (s ++ '"' :: r) = .ok (acc ++ s) ('"' :: r) := by
  intro s
  induction s with
  | nil =>
    intro _ acc r f hf
    obtain ⟨f2, rfl⟩ : ∃ f2, f = f2 + 1 := ⟨f - 1, by omega⟩
    simp [Parser.stringLoop]
  | cons c t ih =>
    intro h acc r f hf
    obtain ⟨f2, rfl⟩ : ∃ f2, f = f2 + 1 := ⟨f - 1, by omega⟩
    obtain ⟨hq, hb⟩ := h c (by simp)
    simp only [List.cons_append, Parser.stringLoop, List.head?_cons, List.tail_cons, hq, hb]
    rw [ih (fun x hx => h x (by simp [hx])) (acc ++ [c]) r f2 (by simp at hf; omega)]
    simp

theorem cleanStr_parts (s : List Char) (h : cleanStr s = true) :
    (∀ c ∈ s, c ≠ '"' ∧ c ≠ '\\') ∧ headNotWs4 s := by
  simp only [cleanStr, Bool.and_eq_true, List.all_eq_true] at h
  obtain ⟨h1, h2⟩ := h
  constructor
  · intro c hc
    have := h1 c hc
    simp only [Bool.and_eq_true, Bool.not_eq_true', decide_eq_false_iff_not] at this
    exact this
  · intro c t hct
    subst hct
    simpa using h2

theorem parseString_clean (s : List Char) (hs : cleanStr s = true)
    (r : List Char) (hr : headNotWs4 r) (f : Nat) (hf : s.length < f) :
    Parser.parseString f ('"' :: (s ++ '"' :: r)) = .ok s r := by
  obtain ⟨hnoq, hhead⟩ := cleanStr_parts s hs
  have hcons : Parser.consume '"' ('"' :: (s ++ '"' :: r))
      = .ok (s ++ '"' :: r) := by
    simp only [Parser.consume, List.head?_cons, List.tail_cons, if_pos rfl]
    cases s with
    | nil => simp [Parser.skipWs4, show isWs4 '"' = false by decide]
    | cons c t =>
      have : isWs4 c = false := by
        have h4 := hhead c t rfl
        exact h4
      simp [Parser.skipWs4, this]
  simp only [Parser.parseString, hcons]
  rw [stringLoop_clean s hnoq [] r f hf]
  simp only [Parser.consume, List.head?_cons, List.tail_cons, if_pos rfl]
  rw [skipWs4_id r hr]
  simp


theorem parseTrue_spec (r : List Char) (hr : headNotWs4 r) :
    Parser.parseTrue ("true".toList ++ r) = .ok r := by
  have hh : Parser.parseTrue ("true".toList ++ r) = .ok (Parser.skipWs4 r) := rfl
  rw [hh, skipWs4_id r hr]

theorem parseFalse_spec (r : List Char) (hr : headNotWs4 r) :
    Parser.parseFalse ("false".toList ++ r) = .ok r := by
  have hh : Parser.parseFalse ("false".toList ++ r) = .ok (Parser.skipWs4 r) := rfl
  rw [hh, skipWs4_id r hr]

theorem parseNull_spec (r : List Char) (hr : headNotWs4 r) :
    Parser.parseNull ("null".toList ++ r) = .ok r := by
  have hh : Parser.parseNull ("null".toList ++ r) = .ok (Parser.skipWs4 r) := rfl
  rw [hh, skipWs4_id r hr]

theorem parseValue_true (g : Nat) (r : List Char) (hr : headNotWs4 r) :
    Parser.parseValue (g + 1) ("true".toList ++ r) = .ok (.bool true) r := by
  have hh : Parser.parseValue (g + 1) ("true".toList ++ r) =
      (match Parser.parseTrue ("true".toList ++ r) with
       | .ok s1 => .ok (.bool true) s1
       | .error e => .err e) := rfl
  rw [hh, parseTrue_spec r hr]

theorem parseValue_false (g : Nat) (r : List Char) (hr : headNotWs4 r) :
    Parser.parseValue (g + 1) ("false".toList ++ r) = .ok (.bool false) r := by
  have hh : Parser.parseValue (g + 1) ("false".toList ++ r) =
      (match Parser.parseFalse ("false".toList ++ r) with
       | .ok s1 => .ok (.bool false) s1
       | .error e => .err e) := rfl
  rw [hh, parseFalse_spec r hr]

theorem parseValue_null (g : Nat) (r : List Char) (hr : headNotWs4 r) :
    Parser.parseValue (g + 1) ("null".toList ++ r) = .ok (.null) r := by
  have hh : Parser.parseValue (g + 1) ("null".toList ++ r) =
      (match Parser.parseNull ("null".toList ++ r) with
       | .ok s1 => .ok (.null) s1
       | .error e => .err e) := rfl
  rw [hh, parseNull_spec r hr]

theorem parseValue_str (g : Nat) (s : List Char) (hs : cleanStr s = true)
    (r : List Char) (hr : headNotWs4 r) (hf : s.length < g) :
    Parser.parseValue (g + 1) ('"' :: (s ++ '"' :: r)) = .ok (.str s) r := by
  have hh : Parser.parseValue (g + 1) ('"' :: (s ++ '"' :: r)) =
      (match Parser.parseString g ('"' :: (s ++ '"' :: r)) with
       | .ok str s1 => .ok (.str str) s1
       | .err e => .err e
       | .fuelOut => .fuelOut) := rfl
  rw [hh, parseString_clean s hs r hr g hf]

theorem parseValue_digit_start (g : Nat) (c : Char) (t : List Char)
    (h : isDigitCh c = true) :
    Parser.parseValue (g + 1) (c :: t) = Parser.parseNumber g (c :: t) := by
  rcases char_digit_cases c h with rfl|rfl|rfl|rfl|rfl|rfl|rfl|rfl|rfl|rfl <;> rfl

theorem parseValue_num (g : Nat) (m : Int) (rest : List Char) (hr : restOk rest)
    (hf : (Encoder.natChars m.natAbs).length ≤ g) :
    Parser.parseValue (g + 1) (Encoder.intChars m ++ rest) = .ok (.num m 0) rest := by
  have hpn := parseNumber_intChars m rest hr g hf
  by_cases hm : m < 0
  · have hic : Encoder.intChars m = '-' :: Encoder.natChars m.natAbs := by
      simp [Encoder.intChars, hm]
    rw [hic, List.cons_append]
    have hh : Parser.parseValue (g + 1) ('-' :: (Encoder.natChars m.natAbs ++ rest))
        = Parser.parseNumber g ('-' :: (Encoder.natChars m.natAbs ++ rest)) := rfl
    rw [hh, ← List.cons_append, ← hic, hpn]
  · have hic : Encoder.intChars m = Encoder.natChars m.natAbs := by
      simp [Encoder.intChars, hm]
    obtain ⟨c, t, hct, hcd⟩ : ∃ c t,
        Encoder.natChars m.natAbs = c :: t ∧ isDigitCh c = true := by
      obtain ⟨_, _, c, t, h1, h2⟩ := natChars_spec m.natAbs
      exact ⟨c, t, h1, h2⟩
    rw [hic, hct, List.cons_append]
    have hback : c :: (t ++ rest) = Encoder.intChars m ++ rest := by
      rw [hic, hct, List.cons_append]
    rw [parseValue_digit_start g c (t ++ rest) hcd, hback, hpn]


theorem insertPair_fresh (ps : List (List Char × JsonValue)) (k : List Char)
    (v : JsonValue) (h : ∀ q ∈ ps, q.1 ≠ k) :
    Parser.insertPair ps k v = ps ++ [(k, v)] := by
  induction ps with
  | nil => rfl
  | cons q rest ih =>
    obtain ⟨k0, v0⟩ := q
    have hk0 : k0 ≠ k := h (k0, v0) (by simp)
    simp only [Parser.insertPair, if_neg hk0, List.cons_append]
    rw [ih (fun q hq => h q (by simp [hq]))]

theorem sepBy_cons_ne (sep x : List Char) (y : List (List Char)) (h : y ≠ []) :
    sepBy sep (x :: y) = x ++ sep ++ sepBy sep y := by
  cases y with
  | nil => exact absurd rfl h
  | cons z zs => rfl

theorem sepBy_first_head (sep x : List Char) (ys : List (List Char)) (c : Char)
    (tt : List Char) (hx : x = c :: tt) : ∃ T, sepBy sep (x :: ys) = c :: T := by
  cases ys with
  | nil => exact ⟨tt, by rw [hx]; rfl⟩
  | cons z zs =>
    refine ⟨tt ++ sep ++ sepBy sep (z :: zs), ?_⟩
    rw [sepBy_cons_ne sep x (z :: zs) (by simp), hx]
    simp

theorem arrayLoop_spec (pv : List Char → PResult JsonValue) :
    ∀ (items : List (List Char × JsonValue)),
    (∀ it ∈ items, ∀ r2, restOk r2 → pv (it.1 ++ r2) = .ok it.2 r2) →
    (∀ it ∈ items, ∃ c t, it.1 = c :: t ∧ isValueStart c = true) →
    ∀ rest, restOk rest → ∀ acc f, items ≠ [] → 2 * items.length + 1 ≤ f →
    Parser.arrayLoop f pv acc (sepBy [','] (items.map Prod.fst) ++ ']' :: rest) =
      .ok (acc ++ items.map Prod.snd) (']' :: rest) := by
  intro items
  induction items with
  | nil => intro _ _ _ _ _ _ hne _; exact absurd rfl hne
  | cons it items2 ih =>
    intro hpv hhd rest hr acc f _ hf
    simp only [List.length_cons] at hf
    obtain ⟨f2, rfl⟩ : ∃ f2, f = f2 + 1 := ⟨f - 1, by omega⟩
    obtain ⟨c, tt, hct, hcv⟩ := hhd it (by simp)
    obtain ⟨hws, hjs, hbr, hbc, hcm⟩ := valueStart_facts c hcv
    cases items2 with
    | nil =>
      simp only [List.map_cons, List.map_nil, sepBy]
      rw [hct, List.cons_append]
      simp only [Parser.arrayLoop, List.head?_cons]
      rw [if_neg (by simp [hbr])]
      rw [show c :: (tt ++ ']' :: rest) = it.1 ++ (']' :: rest) by rw [hct, List.cons_append]]
      rw [hpv it (by simp) (']' :: rest) (Or.inr ⟨']', rest, rfl, by tauto⟩)]
      dsimp only
      have hcomma : ¬((']' :: rest).head? = some ',') := by simp
      have hbrk : ¬((']' :: rest).head? ≠ some ']') := by simp
      rw [if_neg hcomma, if_neg hbrk]
      obtain ⟨f3, rfl⟩ : ∃ f3, f2 = f3 + 1 := ⟨f2 - 1, by omega⟩
      simp [Parser.arrayLoop]
    | cons it2 items3 =>
      simp only [List.map_cons]
      rw [sepBy_cons_ne _ _ _ (by simp)]
      obtain ⟨c2, tt2, hct2, hcv2⟩ := hhd it2 (by simp)
      obtain ⟨T, hT⟩ := sepBy_first_head [','] it2.1 (items3.map Prod.fst) c2 tt2 hct2
      have hx : (it.1 ++ [','] ++ sepBy [','] (it2.1 :: items3.map Prod.fst)) ++ ']' :: rest
          = it.1 ++ (',' :: (sepBy [','] (it2.1 :: items3.map Prod.fst) ++ ']' :: rest)) := by
        simp [List.append_assoc]
      rw [hx, hct, List.cons_append]
      simp only [Parser.arrayLoop, List.head?_cons]
      rw [if_neg (by simp [hbr])]
      rw [show c :: (tt ++ (',' :: (sepBy [','] (it2.1 :: items3.map Prod.fst) ++ ']' :: rest)))
          = it.1 ++ (',' :: (sepBy [','] (it2.1 :: items3.map Prod.fst) ++ ']' :: rest)) by
        rw [hct, List.cons_append]]
      rw [hpv it (by simp) _ (Or.inr ⟨',', _, rfl, by tauto⟩)]
      dsimp only
      rw [if_pos (by simp)]
      have hskip : Parser.skipWs4 (sepBy [','] (it2.1 :: items3.map Prod.fst) ++ ']' :: rest)
          = sepBy [','] (it2.1 :: items3.map Prod.fst) ++ ']' :: rest := by
        rw [hT, List.cons_append]
        have : isWs4 c2 = false := (valueStart_facts c2 hcv2).1
        simp [Parser.skipWs4, this]
      have hcons : Parser.consume ','
          (',' :: (sepBy [','] (it2.1 :: items3.map Prod.fst) ++ ']' :: rest))
          = .ok (sepBy [','] (it2.1 :: items3.map Prod.fst) ++ ']' :: rest) := by
        simp only [Parser.consume, List.head?_cons, List.tail_cons]
        simp [hskip]
      rw [hcons]
      dsimp only
      have hihres := ih (fun q hq r2 hr2 => hpv q (by simp [hq]) r2 hr2)
        (fun q hq => hhd q (by simp [hq])) rest hr (acc ++ [it.2]) f2 (by simp)
        (by simp only [List.length_cons] at hf ⊢; omega)
      simp only [List.map_cons] at hihres
      rw [hihres]
      simp


theorem parseArray_spec (pv : List Char → PResult JsonValue)
    (items : List (List Char × JsonValue))
    (hpv : ∀ it ∈ items, ∀ r2, restOk r2 → pv (it.1 ++ r2) = .ok it.2 r2)
    (hhd : ∀ it ∈ items, ∃ c t, it.1 = c :: t ∧ isValueStart c = true)
    (hne : items ≠ []) (rest : List Char) (hr : restOk rest)
    (f : Nat) (hf : 2 * items.length + 1 ≤ f) :
    Parser.parseArray f pv ('[' :: (sepBy [','] (items.map Prod.fst) ++ ']' :: rest)) =
      .ok (.arr (items.map Prod.snd)) rest := by
  obtain ⟨it1, items2, rfl⟩ : ∃ it1 items2, items = it1 :: items2 := by
    cases items with
    | nil => exact absurd rfl hne
    | cons a b => exact ⟨a, b, rfl⟩
  obtain ⟨c1, t1, hct1, hcv1⟩ := hhd it1 (by simp)
  obtain ⟨T, hT⟩ := sepBy_first_head [','] it1.1 (items2.map Prod.fst) c1 t1 hct1
  have hskip : Parser.skipWs4 (sepBy [','] (it1.1 :: items2.map Prod.fst) ++ ']' :: rest)
      = sepBy [','] (it1.1 :: items2.map Prod.fst) ++ ']' :: rest := by
    rw [hT, List.cons_append]
    simp [Parser.skipWs4, (valueStart_facts c1 hcv1).1]
  have hcons : Parser.consume '['
      ('[' :: (sepBy [','] (it1.1 :: items2.map Prod.fst) ++ ']' :: rest))
      = .ok (sepBy [','] (it1.1 :: items2.map Prod.fst) ++ ']' :: rest) := by
    simp only [Parser.consume, List.head?_cons, List.tail_cons]
    simp [hskip]
  simp only [List.map_cons] at hcons ⊢
  simp only [Parser.parseArray, hcons]
  rw [show (sepBy [','] (it1.1 :: List.map Prod.fst items2))
      = sepBy [','] (List.map Prod.fst (it1 :: items2)) by simp]
  rw [arrayLoop_spec pv (it1 :: items2) hpv hhd rest hr [] f (by simp) hf]
  dsimp only
  have hcons2 : Parser.consume ']' (']' :: rest) = .ok rest := by
    simp only [Parser.consume, List.head?_cons, List.tail_cons]
    simp [skipWs4_id rest (restOk_headNotWs4 rest hr)]
  rw [hcons2]
  simp

theorem parsePair_spec (pv : List Char → PResult JsonValue) (f : Nat)
    (k : List Char) (hk : cleanStr k = true) (tv : List Char) (v : JsonValue)
    (hpvv : ∀ r2, restOk r2 → pv (tv ++ r2) = .ok v r2)
    (hhead : ∃ c t, tv = c :: t ∧ isValueStart c = true)
    (r2 : List Char) (hr2 : restOk r2) (hf : k.length < f) :
    Parser.parsePair pv f ('"' :: (k ++ '"' :: ':' :: (tv ++ r2))) = .ok (k, v) r2 := by
  obtain ⟨c, t, hct, hcv⟩ := hhead
  have hps := parseString_clean k hk (':' :: (tv ++ r2))
    (by intro x xt hxt; cases hxt; decide) f hf
  simp only [Parser.parsePair, hps]
  have hcons : Parser.consume ':' (':' :: (tv ++ r2)) = .ok (tv ++ r2) := by
    simp only [Parser.consume, List.head?_cons, List.tail_cons]
    rw [hct, List.cons_append]
    simp [Parser.skipWs4, (valueStart_facts c hcv).1]
  rw [hcons]
  dsimp only
  rw [hpvv r2 hr2]

theorem objectLoop_spec (pv : List Char → PResult JsonValue) :
    ∀ (items : List ((List Char × List Char) × JsonValue)),
    (∀ it ∈ items, ∀ r2, restOk r2 → pv (it.1.2 ++ r2) = .ok it.2 r2) →
    (∀ it ∈ items, ∃ c t, it.1.2 = c :: t ∧ isValueStart c = true) →
    (∀ it ∈ items, cleanStr it.1.1 = true) →
    (items.map (fun it => it.1.1)).Nodup →
    ∀ props, (∀ it ∈ items, ∀ q ∈ props, q.1 ≠ it.1.1) →
    ∀ rest, restOk rest → ∀ f, items ≠ [] →
    (∀ it ∈ items, 2 * items.length + it.1.1.length + 1 < f) →
    Parser.objectLoop f pv props
        (sepBy [','] (items.map (fun it => '"' :: it.1.1 ++ '"' :: ':' :: it.1.2))
          ++ '}' :: rest) =
      .ok (props ++ items.map (fun it => (it.1.1, it.2))) ('}' :: rest) := by
  intro items
  induction items with
  | nil => intro _ _ _ _ _ _ _ _ _ hne _; exact absurd rfl hne
  | cons it items2 ih =>
    intro hpv hhd hkeys hnodup props hfresh rest hr f _ hf
    have hfit := hf it (by simp)
    simp only [List.length_cons] at hfit
    obtain ⟨f2, rfl⟩ : ∃ f2, f = f2 + 1 := ⟨f - 1, by omega⟩
    obtain ⟨c, tt, hct, hcv⟩ := hhd it (by simp)
    have hkey := hkeys it (by simp)
    -- the encoded text of the first pair, exposed as a cons
    have hpt : ('"' :: it.1.1 ++ '"' :: ':' :: it.1.2)
        = '"' :: (it.1.1 ++ '"' :: ':' :: it.1.2) := by simp
    cases items2 with
    | nil =>
      simp only [List.map_cons, List.map_nil, sepBy]
      rw [hpt, List.cons_append]
      simp only [Parser.objectLoop, List.head?_cons]
      rw [if_neg (by simp)]
      have hshape : (it.1.1 ++ '"' :: ':' :: it.1.2) ++ '}' :: rest
          = it.1.1 ++ '"' :: ':' :: (it.1.2 ++ '}' :: rest) := by simp
      rw [hshape]
      rw [parsePair_spec pv f2 it.1.1 hkey it.1.2 it.2
        (fun r2 hr2 => hpv it (by simp) r2 hr2) ⟨c, tt, hct, hcv⟩
        ('}' :: rest) (Or.inr ⟨'}', rest, rfl, by tauto⟩) (by omega)]
      dsimp only
      rw [if_neg (by simp), if_neg (by simp)]
      obtain ⟨f3, rfl⟩ : ∃ f3, f2 = f3 + 1 := ⟨f2 - 1, by omega⟩
      simp only [Parser.objectLoop, List.head?_cons, if_pos rfl]
      rw [insertPair_fresh props it.1.1 it.2 (fun q hq => hfresh it (by simp) q hq)]
      simp
    | cons it2 items3 =>
      simp only [List.map_cons]
      rw [sepBy_cons_ne _ _ _ (by simp)]
      have hx : (('"' :: it.1.1 ++ '"' :: ':' :: it.1.2) ++ [','] ++
            sepBy [','] (('"' :: it2.1.1 ++ '"' :: ':' :: it2.1.2)
              :: items3.map (fun it => '"' :: it.1.1 ++ '"' :: ':' :: it.1.2))) ++ '}' :: rest
          = '"' :: (it.1.1 ++ '"' :: ':' :: (it.1.2 ++
              (',' :: (sepBy [','] (('"' :: it2.1.1 ++ '"' :: ':' :: it2.1.2)
                :: items3.map (fun it => '"' :: it.1.1 ++ '"' :: ':' :: it.1.2))
                ++ '}' :: rest)))) := by
        simp [List.append_assoc]
      rw [hx]
      simp only [Parser.objectLoop, List.head?_cons]
      rw [if_neg (by simp)]
      rw [parsePair_spec pv f2 it.1.1 hkey it.1.2 it.2
        (fun r2 hr2 => hpv it (by simp) r2 hr2) ⟨c, tt, hct, hcv⟩
        _ (Or.inr ⟨',', _, rfl, by tauto⟩) (by omega)]
      dsimp only
      rw [if_pos (by simp)]
      obtain ⟨T, hT⟩ := sepBy_first_head [','] ('"' :: it2.1.1 ++ '"' :: ':' :: it2.1.2)
        (items3.map (fun it => '"' :: it.1.1 ++ '"' :: ':' :: it.1.2)) '"'
        (it2.1.1 ++ '"' :: ':' :: it2.1.2) (by simp)
      have hcons : Parser.consume ','
          (',' :: (sepBy [','] (('"' :: it2.1.1 ++ '"' :: ':' :: it2.1.2)
            :: items3.map (fun it => '"' :: it.1.1 ++ '"' :: ':' :: it.1.2)) ++ '}' :: rest))
          = .ok (sepBy [','] (('"' :: it2.1.1 ++ '"' :: ':' :: it2.1.2)
            :: items3.map (fun it => '"' :: it.1.1 ++ '"' :: ':' :: it.1.2)) ++ '}' :: rest) := by
        simp only [Parser.consume, List.head?_cons, List.tail_cons]
        rw [hT, List.cons_append]
        simp [Parser.skipWs4, show isWs4 '"' = false by decide]
      rw [hcons]
      dsimp only
      rw [insertPair_fresh props it.1.1 it.2 (fun q hq => hfresh it (by simp) q hq)]
      have hnodup2 : it.1.1 ∉ (it2 :: items3).map (fun it => it.1.1) ∧
          ((it2 :: items3).map (fun it => it.1.1)).Nodup := by
        rw [show (it :: it2 :: items3).map (fun it => it.1.1)
            = it.1.1 :: (it2 :: items3).map (fun it => it.1.1) from rfl] at hnodup
        exact List.nodup_cons.mp hnodup
      have hfresh2 : ∀ it3 ∈ it2 :: items3, ∀ q ∈ props ++ [(it.1.1, it.2)], q.1 ≠ it3.1.1 := by
        intro it3 hit3 q hq
        rcases List.mem_append.mp hq with hq | hq
        · exact hfresh it3 (by simp [hit3]) q hq
        · rw [List.mem_singleton.mp hq]
          intro hcontra
          exact hnodup2.1 (by rw [hcontra]; exact List.mem_map_of_mem _ hit3)
      have hihres := ih (fun q hq r2 hr2 => hpv q (by simp [hq]) r2 hr2)
        (fun q hq => hhd q (by simp [hq])) (fun q hq => hkeys q (by simp [hq]))
        hnodup2.2
        (props ++ [(it.1.1, it.2)]) hfresh2 rest hr f2 (by simp)
        (by
          intro q hq
          have := hf q (by simp [hq])
          simp only [List.length_cons] at this ⊢
          omega)
      simp only [List.map_cons] at hihres
      rw [hihres]
      simp


theorem parseObject_spec (pv : List Char → PResult JsonValue)
    (items : List ((List Char × List Char) × JsonValue))
    (hpv : ∀ it ∈ items, ∀ r2, restOk r2 → pv (it.1.2 ++ r2) = .ok it.2 r2)
    (hhd : ∀ it ∈ items, ∃ c t, it.1.2 = c :: t ∧ isValueStart c = true)
    (hkeys : ∀ it ∈ items, cleanStr it.1.1 = true)
    (hnodup : (items.map (fun it => it.1.1)).Nodup)
    (hne : items ≠ []) (rest : List Char) (hr : restOk rest)
    (f : Nat) (hf : ∀ it ∈ items, 2 * items.length + it.1.1.length + 1 < f) :
    Parser.parseObject f pv
        ('{' :: (sepBy [','] (items.map (fun it => '"' :: it.1.1 ++ '"' :: ':' :: it.1.2))
          ++ '}' :: rest)) =
      .ok (.obj (items.map (fun it => (it.1.1, it.2)))) rest := by
  obtain ⟨it1, items2, rfl⟩ : ∃ it1 items2, items = it1 :: items2 := by
    cases items with
    | nil => exact absurd rfl hne
    | cons a b => exact ⟨a, b, rfl⟩
  obtain ⟨T, hT⟩ := sepBy_first_head [','] ('"' :: it1.1.1 ++ '"' :: ':' :: it1.1.2)
    (items2.map (fun it => '"' :: it.1.1 ++ '"' :: ':' :: it.1.2)) '"'
    (it1.1.1 ++ '"' :: ':' :: it1.1.2) (by simp)
  have hcons : Parser.consume '{'
      ('{' :: (sepBy [','] (((it1 :: items2).map (fun it => '"' :: it.1.1 ++ '"' :: ':' :: it.1.2)))
        ++ '}' :: rest))
      = .ok (sepBy [','] ((it1 :: items2).map (fun it => '"' :: it.1.1 ++ '"' :: ':' :: it.1.2))
        ++ '}' :: rest) := by
    simp only [Parser.consume, List.head?_cons, List.tail_cons, List.map_cons]
    rw [hT, List.cons_append]
    simp [Parser.skipWs4, show isWs4 '"' = false by decide]
  simp only [Parser.parseObject, hcons]
  rw [objectLoop_spec pv (it1 :: items2) hpv hhd hkeys hnodup [] (by simp) rest hr f
    (by simp) hf]
  dsimp only
  have hcons2 : Parser.consume '}' ('}' :: rest) = .ok rest := by
    simp only [Parser.consume, List.head?_cons, List.tail_cons]
    simp [skipWs4_id rest (restOk_headNotWs4 rest hr)]
  rw [hcons2]
  simp


theorem collect_bounds {α β : Type} (Q : α → β → Nat → Nat → Prop)
    (mono : ∀ a b ne np ne2 np2, ne ≤ ne2 → np ≤ np2 → Q a b ne np → Q a b ne2 np2) :
    ∀ (xs : List α), (∀ x ∈ xs, ∃ b ne np, Q x b ne np) →
    ∃ (bs : List β) (NE NP : Nat), List.Forall₂ (fun x b => Q x b NE NP) xs bs := by
  intro xs
  induction xs with
  | nil => intro _; exact ⟨[], 0, 0, .nil⟩
  | cons x xs2 ih =>
    intro h
    obtain ⟨b, ne, np, hq⟩ := h x (by simp)
    obtain ⟨bs, NE, NP, hfa⟩ := ih (fun y hy => h y (by simp [hy]))
    refine ⟨b :: bs, max ne NE, max np NP,
      .cons (mono _ _ _ _ _ _ (le_max_left _ _) (le_max_left _ _) hq) ?_⟩
    exact hfa.imp (fun a b hq2 =>
      mono a b _ _ _ _ (le_max_right _ _) (le_max_right _ _) hq2)

theorem forall2_zip_arr {P : EValue → JsDyn → Prop} : ∀ (xs : List EValue) (ds : List JsDyn),
    List.Forall₂ P xs ds →
    ∃ items : List (List Char × JsonValue),
      items.map Prod.fst = ds.map Encoder.toText ∧
      items.map Prod.snd = xs.map toJson ∧
      items.length = xs.length ∧
      (∀ it ∈ items, ∃ x d, P x d ∧ it = (Encoder.toText d, toJson x)) := by
  intro xs ds hfa
  induction hfa with
  | nil => exact ⟨[], rfl, rfl, rfl, by simp⟩
  | @cons x d xs2 ds2 hxd hrest ih =>
    obtain ⟨items2, h1, h2, h3, h4⟩ := ih
    refine ⟨(Encoder.toText d, toJson x) :: items2, by simp [h1], by simp [h2],
      by simp [h3], ?_⟩
    intro it hit
    rcases List.mem_cons.mp hit with rfl | hit2
    · exact ⟨x, d, hxd, rfl⟩
    · exact h4 it hit2

theorem forall2_zip_obj {P : (List Char × EValue) → JsDyn → Prop} :
    ∀ (ps : List (List Char × EValue)) (ds : List JsDyn),
    List.Forall₂ P ps ds →
    ∃ items : List ((List Char × List Char) × JsonValue),
      items.map (fun it => '"' :: it.1.1 ++ '"' :: ':' :: it.1.2)
        = List.zipWith (fun p d => '"' :: p.1 ++ '"' :: ':' :: Encoder.toText d) ps ds ∧
      items.map (fun it => (it.1.1, it.2)) = ps.map (fun p => (p.1, toJson p.2)) ∧
      items.map (fun it => it.1.1) = ps.map Prod.fst ∧
      items.length = ps.length ∧
      (∀ it ∈ items, ∃ p d, P p d ∧ p ∈ ps ∧
        it = ((p.1, Encoder.toText d), toJson p.2)) := by
  intro ps ds hfa
  induction hfa with
  | nil => exact ⟨[], rfl, rfl, rfl, rfl, fun it hit => absurd hit (List.not_mem_nil it)⟩
  | @cons p d ps2 ds2 hpd hrest ih =>
    obtain ⟨items2, h1, h2, h3, h4, h5⟩ := ih
    refine ⟨((p.1, Encoder.toText d), toJson p.2) :: items2,
      by simp only [List.map_cons, List.zipWith_cons_cons, h1],
      by simp only [List.map_cons, h2],
      by simp only [List.map_cons, h3],
      by simp only [List.length_cons, h4], ?_⟩
    intro it hit
    rcases List.mem_cons.mp hit with rfl | hit2
    · exact ⟨p, d, hpd, by simp, rfl⟩
    · obtain ⟨p2, d2, hq, hmem, heq⟩ := h5 it hit2
      exact ⟨p2, d2, hq, by simp [hmem], heq⟩


set_option maxHeartbeats 1000000 in
theorem roundtrip_value : ∀ (v : EValue), Good v →
    ∃ (d : JsDyn) (ne np : Nat),
      (∃ c t, Encoder.toText d = c :: t ∧ isValueStart c = true) ∧
      (∀ f, ne ≤ f → Encoder.encodeValue f v = .ok d) ∧
      (∀ rest, restOk rest → ∀ g, np ≤ g →
        Parser.parseValue g (Encoder.toText d ++ rest) = .ok (toJson v) rest) := by
  intro v hg
  induction hg with
  | null =>
    refine ⟨.str ("null".toList), 1, 1, ⟨'n', _, rfl, by decide⟩, ?_, ?_⟩
    · intro f hf
      obtain ⟨f2, rfl⟩ : ∃ f2, f = f2 + 1 := ⟨f - 1, by omega⟩
      rfl
    · intro rest hr g hgf
      obtain ⟨g2, rfl⟩ : ∃ g2, g = g2 + 1 := ⟨g - 1, by omega⟩
      rw [show toJson EValue.null = JsonValue.null by simp [toJson]]
      exact parseValue_null g2 rest (restOk_headNotWs4 rest hr)
  | bool b =>
    refine ⟨.boolv b, 1, 1, ?_, ?_, ?_⟩
    · cases b
      · exact ⟨'f', _, rfl, by decide⟩
      · exact ⟨'t', _, rfl, by decide⟩
    · intro f hf
      obtain ⟨f2, rfl⟩ : ∃ f2, f = f2 + 1 := ⟨f - 1, by omega⟩
      rfl
    · intro rest hr g hgf
      obtain ⟨g2, rfl⟩ : ∃ g2, g = g2 + 1 := ⟨g - 1, by omega⟩
      rw [show toJson (EValue.bool b) = JsonValue.bool b by simp [toJson]]
      cases b
      · exact parseValue_false g2 rest (restOk_headNotWs4 rest hr)
      · exact parseValue_true g2 rest (restOk_headNotWs4 rest hr)
  | num m hm =>
    refine ⟨.numv m 0, 1, (Encoder.natChars m.natAbs).length + 1, ?_, ?_, ?_⟩
    · rw [show Encoder.toText (.numv m 0) = Encoder.intChars m from rfl]
      by_cases hneg : m < 0
      · exact ⟨'-', Encoder.natChars m.natAbs, by simp [Encoder.intChars, hneg], by decide⟩
      · obtain ⟨c, t, hct, hcd⟩ : ∃ c t,
            Encoder.natChars m.natAbs = c :: t ∧ isDigitCh c = true := by
          obtain ⟨_, _, c, t, h1, h2⟩ := natChars_spec m.natAbs
          exact ⟨c, t, h1, h2⟩
        refine ⟨c, t, by simp [Encoder.intChars, hneg, hct], ?_⟩
        simp [isValueStart, hcd]
    · intro f hf
      obtain ⟨f2, rfl⟩ : ∃ f2, f = f2 + 1 := ⟨f - 1, by omega⟩
      rfl
    · intro rest hr g hgf
      obtain ⟨g2, rfl⟩ : ∃ g2, g = g2 + 1 := ⟨g - 1, by omega⟩
      rw [show toJson (EValue.num m 0) = JsonValue.num m 0 by simp [toJson]]
      exact parseValue_num g2 m rest hr (by omega)
  | str s hclean hnum =>
    refine ⟨.str (Encoder.withDoubleQuotes s), 1, s.length + 2,
      ⟨'"', _, rfl, by decide⟩, ?_, ?_⟩
    · intro f hf
      obtain ⟨f2, rfl⟩ : ∃ f2, f = f2 + 1 := ⟨f - 1, by omega⟩
      show Encoder.encodeValue (f2 + 1) (.str s) = _
      simp [Encoder.encodeValue, hnum]
    · intro rest hr g hgf
      obtain ⟨g2, rfl⟩ : ∃ g2, g = g2 + 1 := ⟨g - 1, by omega⟩
      rw [show toJson (EValue.str s) = JsonValue.str s by simp [toJson]]
      rw [show Encoder.toText (.str (Encoder.withDoubleQuotes s)) ++ rest
          = '"' :: (s ++ '"' :: rest) by
        simp [Encoder.toText, Encoder.withDoubleQuotes]]
      exact parseValue_str g2 s hclean rest (restOk_headNotWs4 rest hr) (by omega)
  | arr xs hne hall ih =>
    have hcol := collect_bounds
      (Q := fun (x : EValue) (d : JsDyn) (ne np : Nat) =>
        (∃ c t, Encoder.toText d = c :: t ∧ isValueStart c = true) ∧
        (∀ f, ne ≤ f → Encoder.encodeValue f x = .ok d) ∧
        (∀ rest, restOk rest → ∀ g, np ≤ g →
          Parser.parseValue g (Encoder.toText d ++ rest) = .ok (toJson x) rest))
      (fun a b ne np ne2 np2 hnee hnpp hq =>
        ⟨hq.1, fun f hf => hq.2.1 f (le_trans hnee hf),
         fun rest hr g hg3 => hq.2.2 rest hr g (le_trans hnpp hg3)⟩)
      xs ih
    obtain ⟨ds, NE, NP, hfa⟩ := hcol
    obtain ⟨items, hif, his, hil, hiP⟩ := forall2_zip_arr xs ds hfa
    refine ⟨.str ('[' :: (sepBy [','] (ds.map Encoder.toText) ++ [']'])),
      NE + 1, max NP (2 * xs.length + 2) + 1, ⟨'[', _, rfl, by decide⟩, ?_, ?_⟩
    · intro f hf
      obtain ⟨f2, rfl⟩ : ∃ f2, f = f2 + 1 := ⟨f - 1, by omega⟩
      show (Encoder.encodeArray (fun x => Encoder.encodeValue f2 x) xs).map JsDyn.str
        = Except.ok (.str ('[' :: (sepBy [','] (ds.map Encoder.toText) ++ [']'])))
      have hfa2 : List.Forall₂
          (fun x d => Encoder.encodeValue f2 x = Except.ok d ∧ isFunc d = false) xs ds :=
        hfa.imp (fun a b hq =>
          ⟨hq.2.1 f2 (by omega), encodeValue_no_funcv f2 a b (hq.2.1 f2 (by omega))⟩)
      have harr := encodeArrayGo_sepBy (fun x => Encoder.encodeValue f2 x) xs ds hfa2 0
        ['['] hne
      rw [Nat.zero_add] at harr
      rw [Encoder.encodeArray, harr]
      simp [Except.map]
    · intro rest hr g hgf
      obtain ⟨g2, rfl⟩ : ∃ g2, g = g2 + 1 := ⟨g - 1, by omega⟩
      rw [toJson_arr]
      rw [show Encoder.toText (.str ('[' :: (sepBy [','] (ds.map Encoder.toText) ++ [']'])))
            ++ rest
          = '[' :: (sepBy [','] (ds.map Encoder.toText) ++ ']' :: rest) by
        simp [Encoder.toText]]
      rw [show Parser.parseValue (g2 + 1)
            ('[' :: (sepBy [','] (ds.map Encoder.toText) ++ ']' :: rest))
          = Parser.parseArray g2 (fun u => Parser.parseValue g2 u)
            ('[' :: (sepBy [','] (ds.map Encoder.toText) ++ ']' :: rest)) from rfl]
      rw [← hif]
      have hspec := parseArray_spec (fun u => Parser.parseValue g2 u) items
        (fun it hit r2 hr2 => by
          obtain ⟨x, d, hq, rfl⟩ := hiP it hit
          exact hq.2.2 r2 hr2 g2 (by omega))
        (fun it hit => by
          obtain ⟨x, d, hq, rfl⟩ := hiP it hit
          exact hq.1)
        (by
          intro hitnil
          apply hne
          have hlen := hil
          rw [hitnil] at hlen
          cases xs with
          | nil => rfl
          | cons a b => simp at hlen)
        rest hr g2 (by rw [hil]; omega)
      rw [hspec, his]
  | obj ps hne hnodup hkeys hvals ih =>
    have hcol := collect_bounds
      (Q := fun (p : List Char × EValue) (d : JsDyn) (ne np : Nat) =>
        (∃ c t, Encoder.toText d = c :: t ∧ isValueStart c = true) ∧
        (∀ f, ne ≤ f → Encoder.encodeValue f p.2 = .ok d) ∧
        (∀ rest, restOk rest → ∀ g, np ≤ g →
          Parser.parseValue g (Encoder.toText d ++ rest) = .ok (toJson p.2) rest))
      (fun a b ne np ne2 np2 hnee hnpp hq =>
        ⟨hq.1, fun f hf => hq.2.1 f (le_trans hnee hf),
         fun rest hr g hg3 => hq.2.2 rest hr g (le_trans hnpp hg3)⟩)
      ps ih
    obtain ⟨ds, NE, NP, hfa⟩ := hcol
    obtain ⟨items, hitext, hival, hikeys, hilen, hiP⟩ := forall2_zip_obj ps ds hfa
    refine ⟨.str ('{' :: (sepBy [',']
        (List.zipWith (fun p d => '"' :: p.1 ++ '"' :: ':' :: Encoder.toText d) ps ds)
        ++ ['}'])),
      NE + 1,
      max NP (2 * ps.length + (ps.map (fun p => p.1.length)).sum + 2) + 1,
      ⟨'{', _, rfl, by decide⟩, ?_, ?_⟩
    · intro f hf
      obtain ⟨f2, rfl⟩ : ∃ f2, f = f2 + 1 := ⟨f - 1, by omega⟩
      show (Encoder.encodeObject (fun x => Encoder.encodeValue f2 x) ps).map JsDyn.str
        = Except.ok (.str ('{' :: (sepBy [',']
            (List.zipWith (fun p d => '"' :: p.1 ++ '"' :: ':' :: Encoder.toText d) ps ds)
            ++ ['}'])))
      have hfa2 : List.Forall₂
          (fun (p : List Char × EValue) d =>
            Encoder.encodeValue f2 p.2 = Except.ok d ∧ isFunc d = false) ps ds :=
        hfa.imp (fun a b hq =>
          ⟨hq.2.1 f2 (by omega), encodeValue_no_funcv f2 a.2 b (hq.2.1 f2 (by omega))⟩)
      have hobj := encodeObjectGo_sepBy (fun x => Encoder.encodeValue f2 x) ps ds hfa2 0
        ['{'] hne
      rw [Nat.zero_add] at hobj
      simp only [Encoder.encodeObject]
      rw [if_neg (by decide)]
      rw [hobj]
      simp [Except.map]
    · intro rest hr g hgf
      obtain ⟨g2, rfl⟩ : ∃ g2, g = g2 + 1 := ⟨g - 1, by omega⟩
      rw [toJson_obj]
      rw [show Encoder.toText (.str ('{' :: (sepBy [',']
            (List.zipWith (fun p d => '"' :: p.1 ++ '"' :: ':' :: Encoder.toText d) ps ds)
            ++ ['}']))) ++ rest
          = '{' :: (sepBy [',']
            (List.zipWith (fun p d => '"' :: p.1 ++ '"' :: ':' :: Encoder.toText d) ps ds)
            ++ '}' :: rest) by
        simp [Encoder.toText]]
      rw [show Parser.parseValue (g2 + 1)
            ('{' :: (sepBy [',']
              (List.zipWith (fun p d => '"' :: p.1 ++ '"' :: ':' :: Encoder.toText d) ps ds)
              ++ '}' :: rest))
          = Parser.parseObject g2 (fun u => Parser.parseValue g2 u)
            ('{' :: (sepBy [',']
              (List.zipWith (fun p d => '"' :: p.1 ++ '"' :: ':' :: Encoder.toText d) ps ds)
              ++ '}' :: rest)) from rfl]
      rw [← hitext]
      have hspec := parseObject_spec (fun u => Parser.parseValue g2 u) items
        (fun it hit r2 hr2 => by
          obtain ⟨p, d, hq, hmem, rfl⟩ := hiP it hit
          exact hq.2.2 r2 hr2 g2 (by omega))
        (fun it hit => by
          obtain ⟨p, d, hq, hmem, rfl⟩ := hiP it hit
          exact hq.1)
        (fun it hit => by
          obtain ⟨p, d, hq, hmem, rfl⟩ := hiP it hit
          exact hkeys p hmem)
        (by rw [hikeys]; exact hnodup)
        (by
          intro hitnil
          apply hne
          have hlen := hilen
          rw [hitnil] at hlen
          cases ps with
          | nil => rfl
          | cons a b => simp at hlen)
        rest hr g2
        (by
          intro it hit
          obtain ⟨p, d, hq, hmem, rfl⟩ := hiP it hit
          have hkl : p.1.length ≤ (ps.map (fun p => p.1.length)).sum := by
            refine List.single_le_sum (fun x hx => Nat.zero_le x) _ ?_
            exact List.mem_map_of_mem _ hmem
          rw [hilen]
          dsimp only
          omega)
      rw [hspec, hival]

/-!
## The claims
-/

/-- C2, counterexample.  The claim says every boolean is emitted as the
double-quoted string `"true"`/`"false"`.  In fact `encode([true])` yields
`[true]` — a bare boolean literal, not `["true"]`: `+true` is `1`, so the
`!isNaN(+value)` branch returns the boolean itself before the `switch`'s
quoting `case 'boolean'` can run. -/
theorem c2_counterexample :
    Encoder.encode 9 (.arr [.bool true]) = .ok ("[true]".toList) ∧
    ("[true]".toList : List Char) ≠ "[\"true\"]".toList :=
  ⟨rfl, by decide⟩

/-- C2, amended.  Every boolean in the input is emitted as the bare literal
`true`/`false`, never quoted: `encodeValue` on a boolean returns the raw
boolean (through the `!isNaN(+value)` test), whose string coercion is the
unquoted word. -/
theorem c2_amended : ∀ b : Bool,
    Encoder.encodeValue 1 (.bool b) = .ok (.boolv b) ∧
    Encoder.toText (.boolv b) = (if b then "true".toList else "false".toList) ∧
    Encoder.encode 2 (.arr [.bool b]) =
      .ok ('[' :: ((if b then "true".toList else "false".toList) ++ [']'])) := by
  intro b
  cases b <;> exact ⟨rfl, rfl, rfl⟩

/-- C3, counterexample.  The claim says `encode([1, () => 2, 3])` yields
`"[1,3]"` with the callable element skipped.  In fact it yields
`"[1,2,3]"`: `encodeFunction` returns `encodeValue(result)`, which is the
raw number `2`, not a function, so the `typeof val === 'function'` skip
does not fire. -/
theorem c3_counterexample :
    Encoder.encode 9 (.arr [.num 1 0, .func (.num 2 0), .num 3 0]) =
      .ok ("[1,2,3]".toList) ∧
    ("[1,2,3]".toList : List Char) ≠ "[1,3]".toList :=
  ⟨rfl, by decide⟩

/-- C3, amended.  `encode([1, () => 2, 3])` yields `"[1,2,3]"`: the
callable is invoked and its encoded result takes its place.  No element is
ever skipped, because `encodeValue` never returns a value of type
`function` (second conjunct), so the skip condition in `encodeArray` is
unsatisfiable. -/
theorem c3_amended :
    Encoder.encode 9 (.arr [.num 1 0, .func (.num 2 0), .num 3 0]) =
      .ok ("[1,2,3]".toList) ∧
    (∀ fuel (v : EValue) (d : JsDyn),
      Encoder.encodeValue fuel v = .ok d → isFunc d = false) :=
  ⟨rfl, encodeValue_no_funcv⟩

/-- C3, witness for the amended theorem's hypothesis: at the concrete
callable `() => 2`, `encodeValue` returns the raw number `2`, and the
theorem instantiates to `isFunc (numv 2 0) = false`. -/
theorem c3_amended_witness :
    Encoder.encodeValue 5 (.func (.num 2 0)) = .ok (.numv 2 0) ∧
    isFunc (.numv 2 0) = false :=
  ⟨rfl, c3_amended.2 5 (.func (.num 2 0)) (.numv 2 0) rfl⟩

/-- C4, counterexample.  The claim says an empty container still emits its
closing bracket (`encode([])` yields `"[]"`).  In fact the closing bracket
is only ever appended inside the element loop, so `encode([])` yields the
single character `"["`. -/
theorem c4_counterexample :
    Encoder.encode 9 (.arr []) = .ok ("[".toList) ∧
    ("[".toList : List Char) ≠ "[]".toList :=
  ⟨rfl, by decide⟩

/-- C4, amended.  The separator half of the claim holds: when every element
encodes (to a non-function value), a comma follows every element except the
last, after which the closing bracket is emitted — the output is the
element texts joined by `","` between the brackets.  But an empty container
emits only its opening bracket: `encode([])` is `"["` and
`encode(\x7b\x7d)` is `"\x7b"`, with no closing bracket at all. -/
theorem c4_amended :
    Encoder.encode 9 (.arr []) = .ok ("[".toList) ∧
    Encoder.encode 9 (.obj []) = .ok ("\x7b".toList) ∧
    (∀ (ev : EValue → Except EncodeError JsDyn) (xs : List EValue) (ds : List JsDyn),
      List.Forall₂ (fun x d => ev x = Except.ok d ∧ isFunc d = false) xs ds →
      xs ≠ [] →
      Encoder.encodeArray ev xs =
        .ok ('[' :: (sepBy [','] (ds.map Encoder.toText) ++ [']']))) ∧
    (∀ (ev : EValue → Except EncodeError JsDyn) (ps : List (List Char × EValue))
      (ds : List JsDyn),
      List.Forall₂ (fun p d => ev p.2 = Except.ok d ∧ isFunc d = false) ps ds →
      ps ≠ [] →
      Encoder.encodeObject ev ps =
        .ok ('{' :: (sepBy [',']
          (List.zipWith (fun p d => '"' :: p.1 ++ '"' :: ':' :: Encoder.toText d) ps ds)
          ++ ['}']))) := by
  refine ⟨rfl, rfl, ?_, ?_⟩
  · intro ev xs ds hfa hne
    have h := encodeArrayGo_sepBy ev xs ds hfa 0 ['['] hne
    rw [Nat.zero_add] at h
    rw [Encoder.encodeArray, h]
    simp
  · intro ev ps ds hfa hne
    have h := encodeObjectGo_sepBy ev ps ds hfa 0 ['{'] hne
    rw [Nat.zero_add] at h
    rw [Encoder.encodeObject]
    rw [if_neg (by decide)]
    rw [h]
    simp

/-- C4, witness: the amended separator law applied at the two-element array
`[1, 2]` (each element encodes to a raw number, none is a function). -/
theorem c4_amended_witness :
    Encoder.encodeArray (Encoder.encodeValue 5) [.num 1 0, .num 2 0] =
      .ok ("[1,2]".toList) := by
  have h := c4_amended.2.2.1 (Encoder.encodeValue 5) [.num 1 0, .num 2 0]
    [.numv 1 0, .numv 2 0]
    (List.Forall₂.cons ⟨rfl, rfl⟩ (List.Forall₂.cons ⟨rfl, rfl⟩ List.Forall₂.nil))
    (by simp)
  rw [h]
  rfl

/-- C5 (code bug).  The claim — and the spec's own §9 requirement — is that
an unterminated string literal fails with `UnterminatedString`.  The code
instead loops forever: on `'"abc'` the character loop never sees a closing
quote, and past the end of input `charAt` returns `''`, which is neither
`'"'` nor `'\\'`, so `pos` increments unboundedly.  In the fueled model,
`decode` exhausts every fuel instead of returning a value or an error. -/
theorem c5_nontermination : ∀ fuel, decode fuel ("\"abc".toList) = .fuelOut := by
  intro fuel
  cases fuel with
  | zero => rfl
  | succ f =>
    have hsl := stringLoop_out f [] ("abc".toList) (by decide)
    have hps : Parser.parseString f ("\"abc".toList) = .fuelOut := by
      have hh : Parser.parseString f ("\"abc".toList) =
          (match Parser.stringLoop f [] ("abc".toList) with
           | .ok str s2 =>
             match Parser.consume '"' s2 with
             | .ok s3 => .ok str s3
             | .error e => .err e
           | .err e => .err e
           | .fuelOut => .fuelOut) := rfl
      rw [hh, hsl]
    have hpv : Parser.parseValue (f + 1) ("\"abc".toList) = .fuelOut := by
      have hh : Parser.parseValue (f + 1) ("\"abc".toList) =
          (match Parser.parseString f ("\"abc".toList) with
           | .ok str s1 => .ok (.str str) s1
           | .err e => .err e
           | .fuelOut => .fuelOut) := rfl
      rw [hh, hps]
    have hdc : decode (f + 1) ("\"abc".toList) =
        (match Parser.parseValue (f + 1) ("\"abc".toList) with
         | .ok v s1 =>
           let s2 := Parser.consumeWhitespace s1
           let s3 := Parser.consumeWhitespace s2
           if s3 ≠ [] then .err .trailingToken else .ok v s3
         | r => r) := rfl
    rw [hdc, hpv]

/-- C6, counterexample.  The claim says every non-container top-level value
— "in particular null" — fails with `InvalidInput`.  But `typeof null` is
`'object'` in JS, so the guard `!Array.isArray(input) && typeof input !==
'object'` does not fire on `null`: `encode(null)` succeeds and returns the
four-character string `null`. -/
theorem c6_counterexample :
    Encoder.encode 9 EValue.null = .ok ("null".toList) ∧
    Encoder.encode 9 EValue.null ≠ .error .invalidInput :=
  ⟨rfl, fun h => by
    rw [show Encoder.encode 9 EValue.null = .ok ("null".toList) from rfl] at h
    exact Except.noConfusion h⟩

/-- C6, amended.  Top-level numbers, strings, booleans and functions are
rejected with `InvalidInput`; but `null` (of `typeof` `'object'`) is
accepted and encodes to `"null"`, as is any `Date` (also `'object'`),
which encodes to its quoted `toString()`. -/
theorem c6_amended :
    (∀ (m : Int) (sc : Nat), Encoder.encode 9 (.num m sc) = .error .invalidInput) ∧
    (∀ s, Encoder.encode 9 (.str s) = .error .invalidInput) ∧
    (∀ b, Encoder.encode 9 (.bool b) = .error .invalidInput) ∧
    (∀ v, Encoder.encode 9 (.func v) = .error .invalidInput) ∧
    Encoder.encode 9 EValue.null = .ok ("null".toList) ∧
    (∀ s, Encoder.encode 9 (.date s) = .ok (Encoder.withDoubleQuotes s)) :=
  ⟨fun _ _ => rfl, fun _ => rfl, fun _ => rfl, fun _ => rfl, rfl, fun _ => rfl⟩

/-- C7, counterexample.  The claim says `\u` followed by four characters
that are not all hex digits fails with `InvalidUnicodeEscape`.  But the
code checks `isNaN(parseInt(substr, 16))`, and `parseInt` only returns
`NaN` when no leading hex digit exists at all: `parseInt("12xy", 16)` is
`0x12 = 18`, so `decode('"\u12xy"')` succeeds with the single code unit
U+0012 instead of failing. -/
theorem c7_counterexample :
    decode 99 ("\"\\u12xy\"".toList) = .ok (.str ['\x12']) [] ∧
    (∀ e : ParseError, decode 99 ("\"\\u12xy\"".toList) ≠ .err e) :=
  ⟨rfl, fun e h => by
    rw [show decode 99 ("\"\\u12xy\"".toList) = .ok (.str ['\x12']) [] from rfl] at h
    exact PResult.noConfusion h⟩

/-- C7, amended.  A `\uXXXX` escape fails with `InvalidUnicodeEscape` only
when the four characters have no leading hex digit (`parseInt(…, 16)` is
`NaN`); when they begin with hex digits, the longest hex prefix alone
determines the code unit (`\u12xy` yields U+0012); when all four are hex
digits, the escape yields exactly that UTF-16 code unit
(`decode('"\u0041"')` is `"A"`). -/
theorem c7_amended :
    decode 99 ("\"\\u0041\"".toList) = .ok (.str ['A']) [] ∧
    decode 99 ("\"\\u12xy\"".toList) = .ok (.str ['\x12']) [] ∧
    decode 99 ("\"\\uxyzw\"".toList) = .err .invalidUnicodeEscape ∧
    Parser.parseIntHex ("12xy".toList) = some 18 ∧
    Parser.parseIntHex ("xyzw".toList) = none :=
  ⟨rfl, rfl, rfl, rfl, rfl⟩

/-- C8, counterexample.  The claim says `decode('007')` fails with
`InvalidNumber`.  It does fail, but with the trailing-characters error
(`Unexpected token at position …`): `parseDigits`'s `0`-alone sub-rule
accepts the first `0` and returns, `parseNumber` yields the number `0`,
and the remaining `07` triggers the trailing-input check in `parse()`. -/
theorem c8_counterexample :
    decode 99 ("007".toList) = .err .trailingToken ∧
    ParseError.trailingToken ≠ ParseError.invalidNumber :=
  ⟨rfl, by decide⟩

/-- C8, amended.  `decode('007')` fails, but with the trailing-characters
error, not `InvalidNumber`: the integer sub-rule (`0` alone, or `1`-`9`
followed by digits) parses exactly `0` — `parseDigits` consumes the single
leading zero and leaves `07` — so the value `0` parses and `07` is
trailing input. -/
theorem c8_amended :
    decode 99 ("007".toList) = .err .trailingToken ∧
    Parser.parseDigits 9 ("007".toList) = .ok ['0'] ("07".toList) ∧
    decode 99 ("0".toList) = .ok (.num 0 0) [] :=
  ⟨rfl, rfl, rfl⟩

/-- C9 (confirmed).  Duplicate object keys are last-write-wins and raise no
error: `decode('\x7b"a":1,"a":2\x7d')` yields the one-entry mapping `a ↦ 2`,
and in general reading a key back right after the `obj[key] = value`
insertion always yields the newly written value. -/
theorem c9_lastWriteWins :
    decode 99 ("\x7b\"a\":1,\"a\":2\x7d".toList) = .ok (.obj [(['a'], .num 2 0)]) [] ∧
    (∀ ps k v, Parser.lookupKey (Parser.insertPair ps k v) k = some v) :=
  ⟨rfl, lookupKey_insertPair⟩

/-- C10 (confirmed).  Decoding does not preserve all string contents:
whitespace right after the opening quote, and right after an escape
sequence, is dropped, because `consume()` skips whitespace even inside a
string literal — `decode('" a"')` is `"a"` and `decode('"x\n y"')` is
`"x\ny"` (the source-level escapes shown as in the claim). -/
theorem c10_whitespaceDropped :
    decode 99 ("\" a\"".toList) = .ok (.str ['a']) [] ∧
    decode 99 ("\"x\\n y\"".toList) = .ok (.str ['x', '\n', 'y']) [] :=
  ⟨rfl, rfl⟩

/-- C1, counterexample.  The claim says a decoded value "reproduces" the
encoded input, with booleans reappearing as the *strings* `"true"`/`"false"`.
In fact `encode([true])` yields `[true]` and decoding it gives back the
boolean `true`, not the string `"true"`: the two JSON values are distinct. -/
theorem c1_counterexample :
    Encoder.encode 9 (.arr [.bool true]) = .ok ("[true]".toList) ∧
    decode 99 ("[true]".toList) = .ok (.arr [.bool true]) [] ∧
    JsonValue.arr [.bool true] ≠ JsonValue.arr [.str ("true".toList)] := by
  refine ⟨rfl, rfl, ?_⟩
  intro h
  injection h with h1
  injection h1 with h2
  exact JsonValue.noConfusion h2

/-- C1, amended round trip.  On the domain `Good` — top-level non-empty
containers whose leaves are `null`, booleans, integers of magnitude at most
`2^53`, and non-numeric strings free of quotes, backslashes and leading
JS whitespace, with `Nodup` object keys — `encode` succeeds and `decode`
returns exactly the encoded value (image under `toJson`: booleans stay
booleans, not strings), consuming the whole input. -/
theorem c1_amended_roundtrip (v : EValue) (hgood : Good v)
    (hcont : isContainerV v = true) :
    ∃ (out : List Char) (ne np : Nat),
      (∀ f, ne ≤ f → Encoder.encode f v = .ok out) ∧
      (∀ g, np ≤ g → decode g out = .ok (toJson v) []) := by
  obtain ⟨d, ne, np, ⟨c, cs, htext, hvs⟩, henc, hparse⟩ := roundtrip_value v hgood
  refine ⟨Encoder.toText d, ne, np, ?_, ?_⟩
  · intro f hf
    have hev := henc f hf
    cases v with
    | arr xs =>
      show (Encoder.encodeValue f (.arr xs)).map Encoder.toText = _
      rw [hev]
      rfl
    | obj ps =>
      show (Encoder.encodeValue f (.obj ps)).map Encoder.toText = _
      rw [hev]
      rfl
    | null => simp [isContainerV] at hcont
    | bool b => simp [isContainerV] at hcont
    | num m sc => simp [isContainerV] at hcont
    | str s => simp [isContainerV] at hcont
    | date s => simp [isContainerV] at hcont
    | func b => simp [isContainerV] at hcont
  · intro g hg
    have hpv := hparse [] (Or.inl rfl) g hg
    rw [List.append_nil] at hpv
    have hcw : Parser.consumeWhitespace (Encoder.toText d) = Encoder.toText d := by
      rw [htext]
      have hnw := (valueStart_facts c hvs).2.1
      simp [Parser.consumeWhitespace, hnw]
    show Parser.parse g (Encoder.toText d) = _
    have hstep : Parser.parse g (Encoder.toText d) =
        (match Parser.parseValue g (Parser.consumeWhitespace (Encoder.toText d)) with
         | .ok v2 s1 =>
           let s2 := Parser.consumeWhitespace s1
           let s3 := Parser.consumeWhitespace s2
           if s3 ≠ [] then .err .trailingToken else .ok v2 s3
         | r => r) := rfl
    rw [hstep, hcw, hpv]
    simp [Parser.consumeWhitespace]

/-- Witness for the C1 round trip at the concrete value `\x7b"a":1\x7d`. -/
theorem c1_amended_roundtrip_witness :
    Good (.obj [(['a'], EValue.num 1 0)]) ∧
    isContainerV (.obj [(['a'], EValue.num 1 0)]) = true ∧
    (∃ (out : List Char) (ne np : Nat),
      (∀ f, ne ≤ f → Encoder.encode f (.obj [(['a'], EValue.num 1 0)]) = .ok out) ∧
      (∀ g, np ≤ g →
        decode g out = .ok (toJson (.obj [(['a'], EValue.num 1 0)])) [])) := by
  have hgood : Good (.obj [(['a'], EValue.num 1 0)]) := by
    refine Good.obj _ (by simp) (by simp) ?_ ?_
    · intro p hp
      rw [List.mem_singleton.mp hp]
      decide
    · intro p hp
      rw [List.mem_singleton.mp hp]
      exact Good.num 1 (by norm_num)
  exact ⟨hgood, rfl, c1_amended_roundtrip _ hgood rfl⟩

end EJson
